import Mathlib

/-!
# ppmerge: merging a preprocessed TADS 3 source with its original

A shallow embedding of `main` of `ppmerge.cpp`.

Conventions of the embedding.

* A byte (`char`) is its numeric value.  A buffer is the list of the bytes that
  `load_file` read; the extra byte that `malloc (len + 1)` reserves behind them is
  not part of the list.
* A C string is represented by the list of its bytes before the terminating NUL.
* `int` is 32 bits wide.  The counter `i` of the loop over the preprocessed lines is
  fed by `atoi`, so every value it takes is checked against the range of `int`;
  a value out of range is undefined in C and is reported as a `Fault`.
* An access `pre_lines[i]` with a negative `i`, and a read of memory that the program
  never wrote, are undefined in C as well and are reported as a `Fault`.
* `memcmp` compares byte by byte and its result is fixed by the first difference; it reads
  unwritten memory only when all the bytes before agree.
* Buffers are taken to be shorter than `2^31` bytes and `malloc` to succeed, so that
  line counts and indentation widths fit an `int`; they are natural numbers here.
* `isspace` is that of the "C" locale (the program never calls `setlocale`).
-/

namespace PPMerge

/-- A byte of a buffer, as its numeric value. -/
abbrev Byte := Nat

/-- The bytes of a string literal (all literals used here are ASCII). -/
def bytes (s : String) : List Byte := s.toList.map Char.toNat

/-- The ways in which a run leaves the behaviour that C defines. -/
inductive Fault where
  /-- `pre_lines[i]` is accessed with an `i` outside the allocated array. -/
  | preLinesIndex (i : Int)
  /-- an `int` computation leaves the range of `int`. -/
  | intOverflow
  /-- a comparison reads memory that was never written. -/
  | wildRead
  /-- the loop bound of the embedding was too small (never happens, see `divvy`). -/
  | fuel
  deriving DecidableEq, Repr

deriving instance DecidableEq for Except

/-- Largest value of a C `int`. -/
def INT_MAX : Int := 2147483647

/-- Smallest value of a C `int`. -/
def INT_MIN : Int := -2147483648

/-- The result of an `int` computation: defined only inside the range of `int`. -/
def toInt (n : Int) : Except Fault Int :=
  if INT_MIN ≤ n ∧ n ≤ INT_MAX then .ok n else .error .intOverflow

/-- The function `isspace` of `<ctype.h>` in the "C" locale: space, `\t`, `\n`, `\v`, `\f`, `\r`. -/
def isspace (c : Byte) : Bool := c == 32 || (decide (9 ≤ c) && decide (c ≤ 13))

/-- The decimal digits `'0'` to `'9'`. -/
def isdigit (c : Byte) : Bool := decide (48 ≤ c) && decide (c ≤ 57)

/-- The C string that starts at the front of the memory `m`: the bytes before the first NUL. -/
def cstr (m : List Byte) : List Byte := m.takeWhile (fun c => c != 0)

/-- The function `atoi` of `<stdlib.h>` on a C string: leading white space, an optional sign,
then decimal digits; the value is undefined when it does not fit an `int`. -/
def atoi (s : List Byte) : Except Fault Int :=
  let s1 := s.dropWhile isspace
  let neg := s1.head? == some 45
  let s2 := if s1.head? == some 45 || s1.head? == some 43 then s1.drop 1 else s1
  let v : Nat := (s2.takeWhile isdigit).foldl (fun a d => 10 * a + (d - 48)) 0
  toInt (if neg then - (v : Int) else (v : Int))

/-! ## The original buffer: `main`, lines 89 to 116 -/

/-- The loop of lines 90 to 95: `i` is incremented at every newline. -/
def countLoop : List Byte → Nat → Nat
  | [], i => i
  | c :: cs, i => countLoop cs (if c = 10 then i + 1 else i)

/-- The value of `orig_cnt` (line 102): the loop is entered with `i = 1`. -/
def orig_cnt (orig : List Byte) : Nat := countLoop orig 1

/-- The loop of lines 105 to 113, started at offset `p`: the offsets `p + 1` stored into
`orig_lines[1]`, `orig_lines[2]`, ... in this order. -/
def lineStarts : List Byte → Nat → List Nat
  | [], _ => []
  | c :: cs, p => if c = 10 then (p + 1) :: lineStarts cs (p + 1) else lineStarts cs (p + 1)

/-- The memory of the original buffer after lines 105 to 116: every newline has been
overwritten by NUL and the byte behind the buffer is NUL. -/
def terminated (orig : List Byte) : List Byte :=
  orig.map (fun c => if c = 10 then 0 else c) ++ [0]

/-- The array `orig_lines` as the C strings its pointers refer to. -/
def orig_lines (orig : List Byte) : List (List Byte) :=
  (0 :: lineStarts orig 0).map (fun s => cstr ((terminated orig).drop s))

/-! ## The preprocessed buffer: `main`, lines 118 to 168 -/

/-- The state of the loop over the preprocessed lines. -/
structure Tracker where
  /-- the flag `in_our_file` -/
  in_our_file : Bool
  /-- the counter `i` -/
  i : Int
  /-- the array `pre_lines`: `none` is the null pointer, `some s` a pointer to the C string `s` -/
  pre_lines : List (Option (List Byte))
  deriving DecidableEq, Repr

/-- The six bytes `"#line "`. -/
def hashLine : List Byte := [35, 108, 105, 110, 101, 32]

/-- The test `memcmp(q + 1, orig_fname, orig_fname_len) == 0 && q[orig_fname_len + 1] == '"'`
of lines 136 and 137.  The first argument is the file name still to compare, the second the
written memory from the current position on.  The comparison goes byte by byte and stops at
the first difference; it is undefined when it runs out of written memory undecided. -/
def sameFile : List Byte → List Byte → Except Fault Bool
  | [], [] => .error .wildRead
  | [], v :: _ => .ok (v == 34)
  | _ :: _, [] => .error .wildRead
  | n :: ns, v :: vs => if v = n then sameFile ns vs else .ok false

/-- The value assigned to `in_our_file` at lines 135 to 137.  `mem` is the written memory
from `p` on; `q` stops at the first NUL or double quote. -/
def in_our_file_of (orig_fname mem : List Byte) : Except Fault Bool :=
  sameFile (cstr orig_fname) ((mem.dropWhile (fun c => c != 0 && c != 34)).drop 1)

/-- The body of `if (memcmp(p, "#line ", 6) == 0)`, lines 134 to 143. -/
def lineDirective (orig_fname mem : List Byte) (t : Tracker) : Except Fault Tracker :=
  match in_our_file_of orig_fname mem with
  | .error e => .error e
  | .ok f =>
    match atoi ((cstr mem).drop 6) with
    | .error e => .error e
    | .ok n =>
      match toInt (n - 1) with
      | .error e => .error e
      | .ok i => .ok { in_our_file := f, i := i, pre_lines := t.pre_lines }

/-- Lines 154 to 163: store the C string `s` into the slot `k`, or append it to what the slot holds. -/
def assign (pre_lines : List (Option (List Byte))) (k : Nat) (s : List Byte) :
    List (Option (List Byte)) :=
  match pre_lines.getD k none with
  | none => pre_lines.set k (some s)
  | some l => pre_lines.set k (some (l ++ s))

/-- Lines 146 to 167 for a line that is no directive; `s` is the C string at `p`. -/
def assignLine (cnt : Nat) (s : List Byte) (t : Tracker) : Except Fault Tracker :=
  if t.in_our_file && decide (t.i < (cnt : Int)) then
    if t.i < 0 then .error (.preLinesIndex t.i)
    else
      match toInt (t.i + 1) with
      | .error e => .error e
      | .ok j => .ok { in_our_file := t.in_our_file, i := j, pre_lines := assign t.pre_lines t.i.toNat s }
  else
    match toInt (t.i + 1) with
    | .error e => .error e
    | .ok j => .ok { in_our_file := t.in_our_file, i := j, pre_lines := t.pre_lines }

/-- One pass through the body of the loop of lines 122 to 168.  `mem` is the written memory
from `p` on: the line, the NUL just written at `nl`, and the bytes of the buffer behind it. -/
def lineStep (orig_fname : List Byte) (cnt : Nat) (mem : List Byte) (t : Tracker) :
    Except Fault Tracker :=
  if hashLine.isPrefixOf mem then lineDirective orig_fname mem t
  else assignLine cnt (cstr mem) t

/-- The loop of lines 122 to 168.  The second argument is the buffer from `p` to `endp`;
the first bounds the number of passes. -/
def divvyLoop (orig_fname : List Byte) (cnt : Nat) : Nat → List Byte → Tracker → Except Fault Tracker
  | _, [], t => .ok t
  | 0, _ :: _, _ => .error .fuel
  | fuel + 1, c :: cs, t =>
    let line := (c :: cs).takeWhile (fun b => b != 10)
    let after := ((c :: cs).dropWhile (fun b => b != 10)).drop 1
    match lineStep orig_fname cnt (line ++ 0 :: after) t with
    | .error e => .error e
    | .ok t1 => divvyLoop orig_fname cnt fuel after t1

/-- Lines 118 to 168: all slots empty, `in_our_file = TRUE`, `i = 0`, then the loop.  Every
pass consumes at least one byte, so `pre.length` passes are enough. -/
def divvy (orig_fname : List Byte) (cnt : Nat) (pre : List Byte) : Except Fault Tracker :=
  divvyLoop orig_fname cnt pre.length pre
    { in_our_file := true, i := 0, pre_lines := List.replicate cnt none }

/-! ## The merge: `main`, lines 170 to 214 -/

/-- The loop of lines 198 to 209: spaces are written in chunks of at most 100 (the length of
`sp`) until `psp` has reached `osp`.  The first argument bounds the number of passes. -/
def padLoop : Nat → Nat → Nat → List Byte
  | 0, _, _ => []
  | fuel + 1, psp, osp =>
    if psp < osp then
      let cur := if 100 > osp - psp then osp - psp else 100
      List.replicate cur 32 ++ padLoop fuel (psp + cur) osp
    else []

/-- The comment openers tested at lines 189 to 194, in that order. -/
def openers : List (List Byte) :=
  [[47, 42], [42, 32], [42, 10], [42, 46, 32], [42, 47], [47, 47]]

/-- The condition of the `if` of lines 188 to 194: `p` is the preprocessed line and `q` the
original line, both behind their leading white space.  A `memcmp` of a terminated string with
a literal without NUL is decided before the terminator is passed. -/
def restores (p q : List Byte) : Bool :=
  p.isEmpty && openers.any (fun o => o.isPrefixOf q)

/-- The value of `psp` (lines 183 and 184): the number of leading white space bytes of
`pre_lines[i]`, a null pointer having been replaced by the empty string (lines 176, 177). -/
def preIndent (pre : Option (List Byte)) : Nat := ((pre.getD []).takeWhile isspace).length

/-- The value of `osp` (lines 185 and 186): the number of leading white space bytes of
`orig_lines[i]`. -/
def origIndent (orig : List Byte) : Nat := (orig.takeWhile isspace).length

/-- Whether line `i` takes the branch of line 195, which copies the original line. -/
def restored (pre : Option (List Byte)) (orig : List Byte) : Bool :=
  restores ((pre.getD []).dropWhile isspace) (orig.dropWhile isspace)

/-- The bytes written for one line by lines 176 to 211, before the newline of line 213.
`pre` is `pre_lines[i]` and `orig` is `orig_lines[i]`. -/
def mergeLine (pre : Option (List Byte)) (orig : List Byte) : List Byte :=
  if restored pre orig then orig
  else padLoop (origIndent orig - preIndent pre) (preIndent pre) (origIndent orig) ++ pre.getD []

/-- The loop of lines 171 to 214, with `n` passes left and the counter at `i`. -/
def mergeLoop (ol : List (List Byte)) (pl : List (Option (List Byte))) : Nat → Nat → List Byte
  | 0, _ => []
  | n + 1, i => mergeLine (pl.getD i none) (ol.getD i []) ++ 10 :: mergeLoop ol pl n (i + 1)

/-- The bytes that `main` writes to the merged file for the original file name `orig_fname`,
the original buffer `orig` and the preprocessed buffer `pre`. -/
def ppmerge (orig_fname orig pre : List Byte) : Except Fault (List Byte) :=
  match divvy orig_fname (orig_cnt orig) pre with
  | .error e => .error e
  | .ok t => .ok (mergeLoop (orig_lines orig) t.pre_lines (orig_cnt orig) 0)

/-! ## The attribution of physical lines, in the words of the specification -/

/-- The physical lines that are attributed, in the order in which they are met, each with the
logical index it is attributed to: a line that is no directive and is met while
`in_our_file` holds and `0 ≤ i < cnt`.  The content of a line is the C string at `p`. -/
def attributedLoop (orig_fname : List Byte) (cnt : Nat) :
    Nat → List Byte → Tracker → List (Nat × List Byte)
  | _, [], _ => []
  | 0, _ :: _, _ => []
  | fuel + 1, c :: cs, t =>
    let line := (c :: cs).takeWhile (fun b => b != 10)
    let after := ((c :: cs).dropWhile (fun b => b != 10)).drop 1
    let mem := line ++ 0 :: after
    let here : List (Nat × List Byte) :=
      if hashLine.isPrefixOf mem then []
      else if t.in_our_file && decide (0 ≤ t.i) && decide (t.i < (cnt : Int)) then
        [(t.i.toNat, cstr mem)]
      else []
    match lineStep orig_fname cnt mem t with
    | .error _ => here
    | .ok t1 => here ++ attributedLoop orig_fname cnt fuel after t1

/-- The attributed lines of a whole preprocessed buffer. -/
def attributed (orig_fname : List Byte) (cnt : Nat) (pre : List Byte) : List (Nat × List Byte) :=
  attributedLoop orig_fname cnt pre.length pre
    { in_our_file := true, i := 0, pre_lines := List.replicate cnt none }

/-- The lines of a list of attributions that went to the index `k`, in order. -/
def linesFor (evs : List (Nat × List Byte)) (k : Nat) : List (List Byte) :=
  (evs.filter (fun e => e.1 == k)).map (fun e => e.2)

/-- The content of a slot that held `old` after the lines `ls` have been assigned to it one
after the other: still absent when it was absent and no line came, else everything in order
without separator. -/
def appendLines (old : Option (List Byte)) (ls : List (List Byte)) : Option (List Byte) :=
  match old, ls with
  | none, [] => none
  | none, l :: ls => some (l :: ls).flatten
  | some a, ls => some (a ++ ls.flatten)

/-- The content that a list of attributions gives to the slot `k`, all slots being absent at
the start. -/
def slotOf (evs : List (Nat × List Byte)) (k : Nat) : Option (List Byte) :=
  appendLines none (linesFor evs k)

/-- The file name that a directive line declares: the bytes strictly between the first and
the second double quote of the line. -/
def declaredName (line : List Byte) : List Byte :=
  ((line.dropWhile (fun c => c != 34)).drop 1).takeWhile (fun c => c != 34)

/-- The decimal numeral of `n`, most significant digit first, written onto `acc`; the first
argument bounds the number of digits. -/
def decimalAux : Nat → Nat → List Byte → List Byte
  | 0, _, acc => acc
  | fuel + 1, n, acc =>
    if n < 10 then (48 + n) :: acc else decimalAux fuel (n / 10) ((48 + n % 10) :: acc)

/-- The decimal numeral of `n` as a preprocessor writes it in a `#line` directive. -/
def decimal (n : Nat) : List Byte := decimalAux (n + 1) n []

/-- The text made of the lines `ls`, each ended by one newline. -/
def unlines (ls : List (List Byte)) : List Byte := (ls.map (fun l => l ++ [10])).flatten

/-- The physical lines of a buffer: its parts between newlines, without the empty part behind
a final newline (and none at all for the empty buffer). -/
def physicalLines (buf : List Byte) : List (List Byte) :=
  if (buf.splitOn 10).getLast? = some [] then (buf.splitOn 10).dropLast else buf.splitOn 10

/-! ## Lemmas on the padding loop and on one merged line -/

theorem padLoop_eq_replicate (fuel psp osp : Nat) (h : osp - psp ≤ fuel) :
    padLoop fuel psp osp = List.replicate (osp - psp) 32 := by
  induction fuel generalizing psp with
  | zero =>
    have h0 : osp - psp = 0 := by omega
    simp [padLoop, h0]
  | succ n ih =>
    unfold padLoop
    by_cases hlt : psp < osp
    · simp only [hlt, if_true]
      by_cases hc : 100 > osp - psp
      · simp only [hc, if_true]
        rw [ih (psp + (osp - psp)) (by omega)]
        have h0 : osp - (psp + (osp - psp)) = 0 := by omega
        simp [h0]
      · simp only [hc, if_false]
        rw [ih (psp + 100) (by omega), ← List.replicate_add]
        congr 1
        omega
    · have h0 : osp - psp = 0 := by omega
      simp [hlt, h0]

theorem mergeLine_of_not_restored (pre : Option (List Byte)) (orig : List Byte)
    (h : restored pre orig = false) :
    mergeLine pre orig = List.replicate (origIndent orig - preIndent pre) 32 ++ pre.getD [] := by
  unfold mergeLine
  rw [h, padLoop_eq_replicate _ _ _ (le_refl _)]
  simp

theorem dropWhile_isspace_eq_nil (l : List Byte) (h : ∀ c ∈ l, isspace c = true) :
    l.dropWhile isspace = [] := by
  induction l with
  | nil => rfl
  | cons a l ih =>
    have ha : isspace a = true := h a (List.mem_cons_self a l)
    rw [List.dropWhile_cons_of_pos ha]
    exact ih (fun c hc => h c (List.mem_cons_of_mem a hc))

theorem takeWhile_isspace_eq_self (l : List Byte) (h : ∀ c ∈ l, isspace c = true) :
    l.takeWhile isspace = l := by
  induction l with
  | nil => rfl
  | cons a l ih =>
    have ha : isspace a = true := h a (List.mem_cons_self a l)
    rw [List.takeWhile_cons_of_pos ha, ih (fun c hc => h c (List.mem_cons_of_mem a hc))]

/-! ## The claims on the merge of one line -/

/-- C3. Comment restoration: when the preprocessed content of a line is absent or holds
white space only, and the original line behind its leading white space begins with `/*`,
`* `, `*. `, `*/` or `//`, the line written is the original line, leading white space
included and nothing added. -/
theorem comment_line_restored (pre : Option (List Byte)) (orig : List Byte)
    (hpre : ∀ c ∈ pre.getD [], isspace c = true)
    (hopen : ∃ o ∈ [[47, 42], [42, 32], [42, 46, 32], [42, 47], [47, 47]],
      o <+: orig.dropWhile isspace) :
    mergeLine pre orig = orig := by
  obtain ⟨o, ho, hpfx⟩ := hopen
  have hr : restored pre orig = true := by
    unfold restored restores
    rw [dropWhile_isspace_eq_nil _ hpre]
    simp only [List.isEmpty_nil, Bool.true_and, List.any_eq_true]
    refine ⟨o, ?_, List.isPrefixOf_iff_prefix.mpr hpfx⟩
    simp only [List.mem_cons, List.mem_singleton, List.not_mem_nil, or_false] at ho
    simp only [openers, List.mem_cons, List.mem_singleton, List.not_mem_nil, or_false]
    tauto
  unfold mergeLine
  rw [hr]
  rfl

/-- Witness of C3: the original line `  // c` with the white space content ` \t`. -/
theorem comment_line_restored_witness :
    mergeLine (some [32, 9]) [32, 32, 47, 47, 32, 99] = [32, 32, 47, 47, 32, 99] :=
  comment_line_restored (some [32, 9]) [32, 32, 47, 47, 32, 99] (by decide)
    ⟨[47, 47], by decide, by decide⟩

/-- C4 as stated fails: the original line `  x` (two spaces) and the preprocessed content
`\ty` (a tab, then `y`) are not comment-restored and have `origIndent = 2 > 1 = preIndent`;
the line written is one space followed by the whole content `\ty`, not one space followed by
the content from offset `preIndent` on. -/
theorem padding_keeps_pre_indentation :
    restored (some [9, 121]) [32, 32, 120] = false ∧
    preIndent (some [9, 121]) = 1 ∧ origIndent [32, 32, 120] = 2 ∧
    mergeLine (some [9, 121]) [32, 32, 120] = [32, 9, 121] ∧
    mergeLine (some [9, 121]) [32, 32, 120] ≠
      List.replicate (origIndent [32, 32, 120] - preIndent (some [9, 121])) 32
        ++ ([9, 121] : List Byte).drop (preIndent (some [9, 121])) := by
  decide

/-- C4, amended. For a line that is not comment-restored and has `origIndent > preIndent`,
the line written is `origIndent - preIndent` space bytes followed by the whole preprocessed
content, its own leading white space kept. -/
theorem padding_then_whole_pre (pre : Option (List Byte)) (orig : List Byte)
    (hnot : restored pre orig = false) (hlt : preIndent pre < origIndent orig) :
    mergeLine pre orig =
      List.replicate (origIndent orig - preIndent pre) 32 ++ pre.getD [] ∧
    0 < origIndent orig - preIndent pre :=
  ⟨mergeLine_of_not_restored pre orig hnot, by omega⟩

/-- Witness of C4, amended: original `    int y;`, preprocessed ` z;`. -/
theorem padding_then_whole_pre_witness :
    mergeLine (some [32, 122, 59]) [32, 32, 32, 32, 105, 110, 116, 32, 121, 59] =
      List.replicate (origIndent [32, 32, 32, 32, 105, 110, 116, 32, 121, 59]
        - preIndent (some [32, 122, 59])) 32 ++ (some [32, 122, 59]).getD [] ∧
    0 < origIndent [32, 32, 32, 32, 105, 110, 116, 32, 121, 59] - preIndent (some [32, 122, 59]) :=
  padding_then_whole_pre (some [32, 122, 59]) [32, 32, 32, 32, 105, 110, 116, 32, 121, 59]
    (by decide) (by decide)

/-- C5 as stated fails: the original line `  x` (two spaces, no comment opener) without
preprocessed content is written as two spaces, not as an empty line. -/
theorem blank_line_is_padded :
    (∀ o ∈ openers, ¬ o <+: ([32, 32, 120] : List Byte).dropWhile isspace) ∧
    mergeLine none [32, 32, 120] = [32, 32] ∧ mergeLine none [32, 32, 120] ≠ [] := by
  decide

/-- C5, amended. When the preprocessed content of a line is absent or holds white space only
and the original line behind its leading white space begins with none of the openers, the
line written is `origIndent - preIndent` space bytes followed by the content; it holds white
space only, and it is empty exactly when the content is empty and the original line has no
leading white space. -/
theorem blank_line_padding (pre : Option (List Byte)) (orig : List Byte)
    (hpre : ∀ c ∈ pre.getD [], isspace c = true)
    (hopen : ∀ o ∈ openers, ¬ o <+: orig.dropWhile isspace) :
    mergeLine pre orig = List.replicate (origIndent orig - preIndent pre) 32 ++ pre.getD [] ∧
    (∀ c ∈ mergeLine pre orig, isspace c = true) ∧
    (mergeLine pre orig = [] ↔ pre.getD [] = [] ∧ origIndent orig = 0) := by
  have hr : restored pre orig = false := by
    unfold restored restores
    rw [dropWhile_isspace_eq_nil _ hpre]
    simp only [List.isEmpty_nil, Bool.true_and]
    rw [Bool.eq_false_iff]
    intro hany
    obtain ⟨o, ho, hp⟩ := List.any_eq_true.mp hany
    exact hopen o ho (List.isPrefixOf_iff_prefix.mp hp)
  have hm := mergeLine_of_not_restored pre orig hr
  refine ⟨hm, ?_, ?_⟩
  · intro c hc
    rw [hm, List.mem_append] at hc
    rcases hc with hc | hc
    · rw [List.eq_of_mem_replicate hc]
      rfl
    · exact hpre c hc
  · rw [hm]
    constructor
    · intro h
      obtain ⟨h1, h2⟩ := List.append_eq_nil.mp h
      have hz : preIndent pre = 0 := by simp [preIndent, h2]
      have h3 : origIndent orig - preIndent pre = 0 := by
        cases hn : origIndent orig - preIndent pre with
        | zero => rfl
        | succ n => rw [hn] at h1; simp [List.replicate] at h1
      exact ⟨h2, by omega⟩
    · rintro ⟨h1, h2⟩
      simp [h1, h2]

/-- Witness of C5, amended: original `\tfoo();`, preprocessed content one space. -/
theorem blank_line_padding_witness :
    mergeLine (some [32]) [9, 102, 111, 111, 40, 41, 59] =
      List.replicate (origIndent [9, 102, 111, 111, 40, 41, 59] - preIndent (some [32])) 32
        ++ (some [32]).getD [] ∧
    (∀ c ∈ mergeLine (some [32]) [9, 102, 111, 111, 40, 41, 59], isspace c = true) ∧
    (mergeLine (some [32]) [9, 102, 111, 111, 40, 41, 59] = [] ↔
      (some [32]).getD [] = [] ∧ origIndent [9, 102, 111, 111, 40, 41, 59] = 0) :=
  blank_line_padding (some [32]) [9, 102, 111, 111, 40, 41, 59] (by decide) (by decide)

/-! ## Whole runs on concrete buffers -/

set_option maxRecDepth 100000 in
/-- C1 fails on the code. For the original `// hello\nint x = MAC;\n`, the target `src.t` and
the preprocessed text `#line 0 "src.t"` followed by one line, the directive sets `i = -1`,
the test `in_our_file && i < orig_cnt` of line 147 lets the next line through, and
`pre_lines[-1]` is accessed: the run leaves defined behaviour and no merged text of three
lines is produced. -/
theorem line_zero_run_has_no_output :
    orig_cnt (bytes "// hello\nint x = MAC;\n") = 3 ∧
    ppmerge (bytes "src.t") (bytes "// hello\nint x = MAC;\n")
      (bytes "#line 0 \"src.t\"\nint x = 5;\n") = .error (.preLinesIndex (-1)) := by
  decide

set_option maxRecDepth 100000 in
/-- C2 as stated fails: the merged output of the example is not `// hello\nint x = 5;\n`. -/
theorem example_output_differs :
    ppmerge (bytes "src.t") (bytes "// hello\nint x = MAC;\n")
      (bytes "#line 1 \"src.t\"\nint x = 5;\n") ≠ .ok (bytes "// hello\nint x = 5;\n") := by
  decide

set_option maxRecDepth 100000 in
/-- C2, amended. With the original `// hello\nint x = MAC;\n`, the preprocessed text
`#line 1 "src.t"\nint x = 5;\n` and the target `src.t`, the merged output is
`int x = 5;\n\n\n`: the directive anchors the next line at logical line 0, so `int x = 5;`
replaces the comment line, and the logical lines 1 and 2 (the last one being the empty
line behind the final newline) get no content and are written empty. -/
theorem example_output :
    ppmerge (bytes "src.t") (bytes "// hello\nint x = MAC;\n")
      (bytes "#line 1 \"src.t\"\nint x = 5;\n") = .ok (bytes "int x = 5;\n\n\n") := by
  decide

set_option maxRecDepth 100000 in
/-- C6 fails on the code. With the target `f` and one logical line, each of the directives
`#line 0 "f"`, `#line -3 "f"` and `#line ? "f"` (no number: `atoi` gives 0) leaves `i`
negative with `in_our_file` set; the next line passes the test `in_our_file && i < orig_cnt`
and `pre_lines[i]` is accessed at the index -1, -4 and -1. -/
theorem negative_index_is_accessed :
    lineDirective (bytes "f") (bytes "#line 0 \"f\"" ++ 0 :: bytes "x\n")
      { in_our_file := true, i := 0, pre_lines := [none] }
      = .ok { in_our_file := true, i := -1, pre_lines := [none] } ∧
    assignLine 1 (bytes "x") { in_our_file := true, i := -1, pre_lines := [none] }
      = .error (.preLinesIndex (-1)) ∧
    divvy (bytes "f") 1 (bytes "#line 0 \"f\"\nx\n") = .error (.preLinesIndex (-1)) ∧
    divvy (bytes "f") 1 (bytes "#line -3 \"f\"\nx\n") = .error (.preLinesIndex (-4)) ∧
    divvy (bytes "f") 1 (bytes "#line ? \"f\"\nx\n") = .error (.preLinesIndex (-1)) := by
  decide

/-! ## The accumulation of the preprocessed lines -/

theorem appendLines_append (old : Option (List Byte)) (a b : List (List Byte)) :
    appendLines (appendLines old a) b = appendLines old (a ++ b) := by
  cases old with
  | none =>
    cases a with
    | nil => rfl
    | cons x xs =>
      simp [appendLines]
  | some o =>
    simp [appendLines]

theorem linesFor_append (a b : List (Nat × List Byte)) (k : Nat) :
    linesFor (a ++ b) k = linesFor a k ++ linesFor b k := by
  simp [linesFor]

theorem assign_length (pl : List (Option (List Byte))) (j : Nat) (s : List Byte) :
    (assign pl j s).length = pl.length := by
  unfold assign
  split <;> simp

theorem assign_getD (pl : List (Option (List Byte))) (j k : Nat) (s : List Byte)
    (hj : j < pl.length) :
    (assign pl j s).getD k none =
      appendLines (pl.getD k none) (if j = k then [s] else []) := by
  unfold assign
  by_cases hjk : j = k
  · subst hjk
    cases hold : pl.getD j none with
    | none => simp [appendLines, List.getD_eq_getElem?_getD, List.getElem?_set, hj]
    | some a => simp [appendLines, List.getD_eq_getElem?_getD, List.getElem?_set, hj]
  · have hset : ∀ v, (pl.set j v).getD k none = pl.getD k none := by
      intro v
      simp [List.getD_eq_getElem?_getD, List.getElem?_set, hjk]
    have hnil : appendLines (pl.getD k none) [] = pl.getD k none := by
      cases pl.getD k none <;> simp [appendLines]
    cases hold : pl.getD j none with
    | none => simp only [hset, hjk, if_false, hnil]
    | some a => simp only [hset, hjk, if_false, hnil]

theorem appendLines_nil (old : Option (List Byte)) : appendLines old [] = old := by
  cases old <;> simp [appendLines]

theorem lineStep_slots (fname : List Byte) (cnt : Nat) (mem : List Byte) (t t1 : Tracker)
    (hlen : t.pre_lines.length = cnt) (h : lineStep fname cnt mem t = .ok t1) (k : Nat) :
    t1.pre_lines.length = cnt ∧
    t1.pre_lines.getD k none = appendLines (t.pre_lines.getD k none)
      (linesFor (if hashLine.isPrefixOf mem then []
        else if t.in_our_file && decide (0 ≤ t.i) && decide (t.i < (cnt : Int)) then
          [(t.i.toNat, cstr mem)]
        else []) k) := by
  unfold lineStep at h
  cases hd : hashLine.isPrefixOf mem with
  | true =>
    simp only [hd, if_true] at h ⊢
    unfold lineDirective at h
    cases h1 : in_our_file_of fname mem with
    | error e => simp [h1] at h
    | ok f =>
      cases h2 : atoi (List.drop 6 (cstr mem)) with
      | error e => simp [h1, h2] at h
      | ok n =>
        cases h3 : toInt (n - 1) with
        | error e => simp [h1, h2, h3] at h
        | ok i =>
          simp only [h1, h2, h3, Except.ok.injEq] at h
          subst h
          simp [linesFor, appendLines_nil, hlen]
  | false =>
    simp only [hd, Bool.false_eq_true, if_false] at h ⊢
    unfold assignLine at h
    cases h3 : toInt (t.i + 1) with
    | error e =>
      exfalso
      rw [h3] at h
      split at h
      · split at h <;> cases h
      · cases h
    | ok j =>
      by_cases hin : (t.in_our_file && decide (t.i < (cnt : Int))) = true
      · simp only [hin, if_true] at h
        by_cases hneg : t.i < 0
        · simp [hneg] at h
        · simp only [hneg, if_false, h3, Except.ok.injEq] at h
          subst h
          have h0 : 0 ≤ t.i := by omega
          simp only [Bool.and_eq_true, decide_eq_true_eq] at hin
          have hj : t.i.toNat < t.pre_lines.length := by omega
          refine ⟨by simp [assign_length, hlen], ?_⟩
          rw [assign_getD _ _ _ _ hj]
          simp only [hin.1, h0, hin.2, decide_True, Bool.and_self, if_true, linesFor]
          by_cases hjk : t.i.toNat = k <;> simp [hjk]
      · simp only [hin, h3, Except.ok.injEq] at h
        simp only [Bool.false_eq_true, if_false, Except.ok.injEq] at h
        subst h
        have hcond : (t.in_our_file && decide (0 ≤ t.i) && decide (t.i < (cnt : Int))) = false := by
          rw [Bool.eq_false_iff]
          intro hc
          apply hin
          simp only [Bool.and_eq_true, decide_eq_true_eq] at hc ⊢
          exact ⟨hc.1.1, hc.2⟩
        simp [hcond, linesFor, appendLines_nil, hlen]

theorem divvyLoop_succ_cons (fname : List Byte) (cnt fuel : Nat) (c : Byte) (cs : List Byte)
    (t : Tracker) :
    divvyLoop fname cnt (fuel + 1) (c :: cs) t =
      match lineStep fname cnt ((c :: cs).takeWhile (fun b => b != 10) ++
          0 :: ((c :: cs).dropWhile (fun b => b != 10)).drop 1) t with
      | .error e => .error e
      | .ok t1 => divvyLoop fname cnt fuel (((c :: cs).dropWhile (fun b => b != 10)).drop 1) t1 :=
  rfl

theorem attributedLoop_succ_cons (fname : List Byte) (cnt fuel : Nat) (c : Byte) (cs : List Byte)
    (t : Tracker) :
    attributedLoop fname cnt (fuel + 1) (c :: cs) t =
      match lineStep fname cnt ((c :: cs).takeWhile (fun b => b != 10) ++
          0 :: ((c :: cs).dropWhile (fun b => b != 10)).drop 1) t with
      | .error _ =>
        (if hashLine.isPrefixOf ((c :: cs).takeWhile (fun b => b != 10) ++
            0 :: ((c :: cs).dropWhile (fun b => b != 10)).drop 1) then []
        else if t.in_our_file && decide (0 ≤ t.i) && decide (t.i < (cnt : Int)) then
          [(t.i.toNat, cstr ((c :: cs).takeWhile (fun b => b != 10) ++
            0 :: ((c :: cs).dropWhile (fun b => b != 10)).drop 1))]
        else [])
      | .ok t1 =>
        (if hashLine.isPrefixOf ((c :: cs).takeWhile (fun b => b != 10) ++
            0 :: ((c :: cs).dropWhile (fun b => b != 10)).drop 1) then []
        else if t.in_our_file && decide (0 ≤ t.i) && decide (t.i < (cnt : Int)) then
          [(t.i.toNat, cstr ((c :: cs).takeWhile (fun b => b != 10) ++
            0 :: ((c :: cs).dropWhile (fun b => b != 10)).drop 1))]
        else []) ++
          attributedLoop fname cnt fuel (((c :: cs).dropWhile (fun b => b != 10)).drop 1) t1 :=
  rfl

theorem divvyLoop_slots (fname : List Byte) (cnt : Nat) (fuel : Nat) :
    ∀ (rest : List Byte) (t0 t : Tracker), t0.pre_lines.length = cnt →
      divvyLoop fname cnt fuel rest t0 = .ok t → ∀ k,
      t.pre_lines.getD k none = appendLines (t0.pre_lines.getD k none)
        (linesFor (attributedLoop fname cnt fuel rest t0) k) := by
  induction fuel with
  | zero =>
    intro rest t0 t hlen h k
    cases rest with
    | nil =>
      simp only [divvyLoop] at h
      cases h
      simp [attributedLoop, linesFor, appendLines_nil]
    | cons c cs => simp [divvyLoop] at h
  | succ n ih =>
    intro rest t0 t hlen h k
    cases rest with
    | nil =>
      simp only [divvyLoop] at h
      cases h
      simp [attributedLoop, linesFor, appendLines_nil]
    | cons c cs =>
      rw [divvyLoop_succ_cons] at h
      rw [attributedLoop_succ_cons]
      cases hstep : lineStep fname cnt
          ((c :: cs).takeWhile (fun b => b != 10) ++
            0 :: ((c :: cs).dropWhile (fun b => b != 10)).drop 1) t0 with
      | error e =>
        rw [hstep] at h
        cases h
      | ok t1 =>
        rw [hstep] at h
        obtain ⟨hl1, hg1⟩ := lineStep_slots fname cnt _ t0 t1 hlen hstep k
        rw [ih _ t1 t hl1 h k, hg1, appendLines_append, linesFor_append]

/-- C7. Order-preserving concatenation: when the loop over the preprocessed buffer has run
to its end, every slot of `pre_lines` holds the lines attributed to its index, in the order
in which they were met and without separator, and is absent when no line was attributed to
it; lines `A` then `B` attributed to one index give `A` immediately followed by `B`.  The
content of a line is the C string at its start. -/
theorem slots_hold_attributed_lines (orig_fname : List Byte) (cnt : Nat) (pre : List Byte)
    (t : Tracker) (h : divvy orig_fname cnt pre = .ok t) (k : Nat) :
    t.pre_lines.getD k none = slotOf (attributed orig_fname cnt pre) k ∧
    (∀ A B : List Byte, slotOf [(k, A), (k, B)] k = some (A ++ B)) ∧
    slotOf [] k = none := by
  refine ⟨?_, ?_, rfl⟩
  · have hs := divvyLoop_slots orig_fname cnt pre.length pre _ t (by simp) h k
    rw [hs]
    simp [slotOf, attributed, List.getD_eq_getElem?_getD, List.getElem?_replicate]
    split <;> rfl
  · intro A B
    simp [slotOf, linesFor, appendLines]

set_option maxRecDepth 100000 in
/-- Witness of C7: with the target `f` and two logical lines, the lines `ab` and `cd` both
follow a directive `#line 1 "f"` and `xy` follows `cd`; slot 0 holds `abcd`. -/
theorem slots_hold_attributed_lines_witness :
    divvy (bytes "f") 2 (bytes "#line 1 \"f\"\nab\n#line 1 \"f\"\ncd\nxy\n")
      = .ok { in_our_file := true, i := 2,
              pre_lines := [some (bytes "abcd"), some (bytes "xy")] } ∧
    (([some (bytes "abcd"), some (bytes "xy")] : List (Option (List Byte))).getD 0 none =
      slotOf (attributed (bytes "f") 2
        (bytes "#line 1 \"f\"\nab\n#line 1 \"f\"\ncd\nxy\n")) 0 ∧
    (∀ A B : List Byte, slotOf [(0, A), (0, B)] 0 = some (A ++ B)) ∧
    slotOf [] 0 = none) :=
  ⟨by decide,
   slots_hold_attributed_lines (bytes "f") 2
    (bytes "#line 1 \"f\"\nab\n#line 1 \"f\"\ncd\nxy\n")
    { in_our_file := true, i := 2, pre_lines := [some (bytes "abcd"), some (bytes "xy")] }
    (by decide) 0⟩

/-! ## The file name of a directive -/

theorem sameFile_decided (name : List Byte) :
    ∀ view : List Byte, 0 ∉ name → 0 ∈ view →
      sameFile name view = .ok ((name ++ [34]).isPrefixOf view) := by
  induction name with
  | nil =>
    intro view _ hv
    cases view with
    | nil => simp at hv
    | cons v vs =>
      simp only [sameFile, List.nil_append, List.isPrefixOf, Bool.and_true]
      congr 1
      exact Bool.beq_comm
  | cons n ns ih =>
    intro view hn hv
    cases view with
    | nil => simp at hv
    | cons v vs =>
      simp only [sameFile, List.cons_append, List.isPrefixOf]
      by_cases hvn : v = n
      · subst hvn
        have hv0 : v ≠ 0 := by
          intro h0
          exact hn (by simp [h0])
        have hvs : 0 ∈ vs := by
          rcases List.mem_cons.mp hv with h | h
          · exact absurd h.symm hv0
          · exact h
        simp only [if_true, beq_self_eq_true, Bool.true_and]
        exact ih vs (fun h => hn (List.mem_cons_of_mem _ h)) hvs
      · have hne : (n == v) = false := by
          rw [beq_eq_false_iff_ne]
          exact fun h => hvn h.symm
        simp [hvn, hne]

theorem cstr_eq_self (l : List Byte) (h : 0 ∉ l) : cstr l = l := by
  unfold cstr
  induction l with
  | nil => rfl
  | cons a l ih =>
    have ha : a ≠ 0 := fun h0 => h (by simp [h0])
    rw [List.takeWhile_cons_of_pos (by simpa using ha), ih (fun hm => h (List.mem_cons_of_mem _ hm))]

theorem zero_not_mem_cstr (l : List Byte) : 0 ∉ cstr l := by
  unfold cstr
  intro h
  have := List.mem_takeWhile_imp h
  simp at this

/-- A name without quote followed by a quote is an initial segment of a quote-free list
followed by a quote exactly when the two lists are equal. -/
theorem isPrefixOf_quote (a : List Byte) :
    ∀ (d x : List Byte), 34 ∉ a → 34 ∉ d →
      (a ++ [34]).isPrefixOf (d ++ 34 :: x) = decide (d = a) := by
  induction a with
  | nil =>
    intro d x _ hd
    cases d with
    | nil => simp [List.isPrefixOf]
    | cons e es =>
      have he : e ≠ 34 := fun h => hd (by simp [h])
      have hne : ((34 : Byte) == e) = false := by
        rw [beq_eq_false_iff_ne]
        exact fun h => he h.symm
      simp [List.isPrefixOf, hne]
  | cons b bs ih =>
    intro d x ha hd
    have hb : b ≠ 34 := fun h => ha (by simp [h])
    cases d with
    | nil =>
      have hne : (b == (34 : Byte)) = false := by
        rw [beq_eq_false_iff_ne]
        exact hb
      simp [List.isPrefixOf, hne]
    | cons e es =>
      have hstep : ((b :: bs) ++ [34]).isPrefixOf ((e :: es) ++ 34 :: x) =
          (b == e && (bs ++ [34]).isPrefixOf (es ++ 34 :: x)) := rfl
      rw [hstep,
        ih es x (fun h => ha (List.mem_cons_of_mem _ h)) (fun h => hd (List.mem_cons_of_mem _ h))]
      by_cases hbe : b = e
      · subst hbe
        simp
      · have hne : (b == e) = false := by
          rw [beq_eq_false_iff_ne]
          exact hbe
        have : ¬ (e :: es = b :: bs) := by
          intro h
          injection h with h1 h2
          exact hbe h1.symm
        simp [hne, this]

theorem dropWhile_append_stop (p : Byte → Bool) (h : List Byte) (c : Byte) (r : List Byte)
    (hh : ∀ x ∈ h, p x = true) (hc : p c = false) :
    (h ++ c :: r).dropWhile p = c :: r := by
  induction h with
  | nil => simp [List.dropWhile, hc]
  | cons a l ih =>
    rw [List.cons_append, List.dropWhile_cons_of_pos (hh a (List.mem_cons_self a l))]
    exact ih (fun x hx => hh x (List.mem_cons_of_mem a hx))

theorem takeWhile_append_stop (p : Byte → Bool) (h : List Byte) (c : Byte) (r : List Byte)
    (hh : ∀ x ∈ h, p x = true) (hc : p c = false) :
    (h ++ c :: r).takeWhile p = h := by
  induction h with
  | nil => simp [List.takeWhile, hc]
  | cons a l ih =>
    rw [List.cons_append, List.takeWhile_cons_of_pos (hh a (List.mem_cons_self a l)),
      ih (fun x hx => hh x (List.mem_cons_of_mem a hx))]

/-- The shape of a line with at least two double quotes. -/
theorem two_quotes_split (line : List Byte) (h2 : 2 ≤ line.count 34) :
    ∃ r, line = line.takeWhile (fun c => c != 34) ++ 34 :: (declaredName line ++ 34 :: r) := by
  have hsplit : ∀ l : List Byte, 1 ≤ l.count 34 →
      ∃ r, l = l.takeWhile (fun c => c != 34) ++ 34 :: r ∧ r.count 34 + 1 = l.count 34 ∧
        (l.dropWhile (fun c => c != 34)).drop 1 = r := by
    intro l
    induction l with
    | nil => intro h; simp at h
    | cons a l ih =>
      intro h
      by_cases ha : a = 34
      · subst ha
        exact ⟨l, by simp, by simp, by simp⟩
      · have hcount : (a :: l).count 34 = l.count 34 := by
          rw [List.count_cons]
          simp [ha]
        rw [hcount] at h
        obtain ⟨r, hr1, hr2, hr3⟩ := ih h
        refine ⟨r, ?_, ?_, ?_⟩
        · rw [List.takeWhile_cons_of_pos (by simpa using ha)]
          rw [List.cons_append, ← hr1]
        · rw [hcount, hr2]
        · rw [List.dropWhile_cons_of_pos (by simpa using ha)]
          exact hr3
  obtain ⟨r1, h1, hc1, hd1⟩ := hsplit line (by omega)
  obtain ⟨r2, h3, _, _⟩ := hsplit r1 (by omega)
  refine ⟨r2, ?_⟩
  unfold declaredName
  rw [hd1, ← h3]
  exact h1

theorem in_our_file_of_quoted (fname line after : List Byte)
    (h2 : 2 ≤ line.count 34) (h0 : 0 ∉ line.takeWhile (fun c => c != 34))
    (hq : 34 ∉ cstr fname) :
    in_our_file_of fname (line ++ 0 :: after) = .ok (decide (declaredName line = cstr fname)) := by
  obtain ⟨r, hr⟩ := two_quotes_split line h2
  have hD : 34 ∉ declaredName line := by
    unfold declaredName
    intro h
    have := List.mem_takeWhile_imp h
    simp at this
  have hstop : ∀ x ∈ line.takeWhile (fun c => c != 34), (x != 0 && x != 34) = true := by
    intro x hx
    have h34 := List.mem_takeWhile_imp hx
    have hx0 : x ≠ 0 := fun h => h0 (h ▸ hx)
    simp only [bne_iff_ne, ne_eq] at h34
    simp [hx0, h34]
  unfold in_our_file_of
  have hmem : line ++ 0 :: after =
      line.takeWhile (fun c => c != 34) ++ 34 :: (declaredName line ++ 34 :: (r ++ 0 :: after)) := by
    conv_lhs => rw [hr]
    simp [List.append_assoc]
  rw [hmem, dropWhile_append_stop _ _ _ _ hstop (by decide)]
  simp only [List.drop_succ_cons, List.drop_zero]
  rw [sameFile_decided _ _ (zero_not_mem_cstr fname) (by simp), isPrefixOf_quote _ _ _ hq hD]

theorem isPrefixOf_append_right (a l r : List Byte) (h : a.isPrefixOf l = true) :
    a.isPrefixOf (l ++ r) = true := by
  induction a generalizing l with
  | nil => simp [List.isPrefixOf]
  | cons b bs ih =>
    cases l with
    | nil => simp [List.isPrefixOf] at h
    | cons e es =>
      simp only [List.cons_append, List.isPrefixOf, Bool.and_eq_true] at h ⊢
      exact ⟨h.1, ih es h.2⟩

theorem lineStep_in_our_file (orig_fname : List Byte) (cnt : Nat) (line after : List Byte)
    (t t1 : Tracker) (b : Bool) (hdir : hashLine.isPrefixOf line = true)
    (hb : in_our_file_of orig_fname (line ++ 0 :: after) = .ok b)
    (h : lineStep orig_fname cnt (line ++ 0 :: after) t = .ok t1) :
    t1.in_our_file = b := by
  unfold lineStep at h
  rw [isPrefixOf_append_right _ _ _ hdir] at h
  simp only [if_true] at h
  unfold lineDirective at h
  rw [hb] at h
  cases h2 : atoi (List.drop 6 (cstr (line ++ 0 :: after))) with
  | error e => simp [h2] at h
  | ok n =>
    cases h3 : toInt (n - 1) with
    | error e => simp [h2, h3] at h
    | ok i =>
      simp only [h2, h3, Except.ok.injEq] at h
      rw [← h]

theorem assignLine_not_in_our_file (cnt : Nat) (s : List Byte) (t t2 : Tracker)
    (hf : t.in_our_file = false) (h : assignLine cnt s t = .ok t2) :
    t2.pre_lines = t.pre_lines ∧ t2.in_our_file = false := by
  unfold assignLine at h
  simp only [hf, Bool.false_and, Bool.false_eq_true, if_false] at h
  cases h3 : toInt (t.i + 1) with
  | error e => simp [h3] at h
  | ok j =>
    simp only [h3, Except.ok.injEq] at h
    rw [← h]
    exact ⟨rfl, rfl⟩

/-- C8 as stated fails. With the target `foo"t` the directive `#line 1 "foo"t"` declares
`foo`, a strict prefix of the target, and sets `in_our_file`: the comparison runs over the
quote inside the target name.  With the target `foo.t` the directive line `#line 1`, NUL,
`foo.t"fo"` declares `fo`, a strict prefix of the target, and sets `in_our_file` too: the
search for the first quote stops at the NUL. -/
theorem quote_in_target_accepts_shorter_name :
    declaredName (bytes "#line 1 \"foo\"t\"") = bytes "foo" ∧
    (bytes "foo").isPrefixOf (bytes "foo\"t") = true ∧ bytes "foo" ≠ bytes "foo\"t" ∧
    lineStep (bytes "foo\"t") 1 (bytes "#line 1 \"foo\"t\"" ++ 0 :: bytes "x\n")
      { in_our_file := false, i := 5, pre_lines := [none] }
      = .ok { in_our_file := true, i := 0, pre_lines := [none] } ∧
    declaredName (bytes "#line 1" ++ 0 :: bytes "foo.t\"fo\"") = bytes "fo" ∧
    (bytes "fo").isPrefixOf (bytes "foo.t") = true ∧ bytes "fo" ≠ bytes "foo.t" ∧
    lineStep (bytes "foo.t") 1 ((bytes "#line 1" ++ 0 :: bytes "foo.t\"fo\"") ++ 0 :: bytes "x\n")
      { in_our_file := false, i := 5, pre_lines := [none] }
      = .ok { in_our_file := true, i := 0, pre_lines := [none] } := by
  decide

/-- C8, amended. For a target file name without double quote and a directive line with no
NUL before its first double quote, a declared file name that is a strict prefix of the
target, or of which the target is a strict prefix, makes the directive clear `in_our_file`,
and while it is clear no line changes `pre_lines`. -/
theorem other_declared_name_rejected (orig_fname line after : List Byte) (cnt : Nat)
    (hdir : hashLine.isPrefixOf line = true) (h2 : 2 ≤ line.count 34)
    (h0 : 0 ∉ line.takeWhile (fun c => c != 34)) (hq : 34 ∉ cstr orig_fname)
    (hpre : ((declaredName line).isPrefixOf (cstr orig_fname) = true ∨
        (cstr orig_fname).isPrefixOf (declaredName line) = true) ∧
      declaredName line ≠ cstr orig_fname) :
    in_our_file_of orig_fname (line ++ 0 :: after) = .ok false ∧
    ∀ t t1 : Tracker, lineStep orig_fname cnt (line ++ 0 :: after) t = .ok t1 →
      t1.in_our_file = false ∧
      ∀ (s : List Byte) (t2 : Tracker), assignLine cnt s t1 = .ok t2 →
        t2.pre_lines = t1.pre_lines ∧ t2.in_our_file = false := by
  have hb : in_our_file_of orig_fname (line ++ 0 :: after) = .ok false := by
    rw [in_our_file_of_quoted orig_fname line after h2 h0 hq]
    simp [hpre.2]
  refine ⟨hb, ?_⟩
  intro t t1 h
  have hf := lineStep_in_our_file orig_fname cnt line after t t1 false hdir hb h
  exact ⟨hf, fun s t2 hs => assignLine_not_in_our_file cnt s t1 t2 hf hs⟩

set_option maxRecDepth 100000 in
/-- Witness of C8, amended: the target `foo.t` and the directive `#line 3 "foo"`. -/
theorem other_declared_name_rejected_witness :
    in_our_file_of (bytes "foo.t") (bytes "#line 3 \"foo\"" ++ 0 :: bytes "x\n") = .ok false ∧
    ∀ t t1 : Tracker,
      lineStep (bytes "foo.t") 4 (bytes "#line 3 \"foo\"" ++ 0 :: bytes "x\n") t = .ok t1 →
      t1.in_our_file = false ∧
      ∀ (s : List Byte) (t2 : Tracker), assignLine 4 s t1 = .ok t2 →
        t2.pre_lines = t1.pre_lines ∧ t2.in_our_file = false :=
  other_declared_name_rejected (bytes "foo.t") (bytes "#line 3 \"foo\"") (bytes "x\n") 4
    (by decide) (by decide) (by decide) (by decide) (by decide)

/-- C9 as stated fails. With the target `a"b` the directive `#line 7 "a"b"` has three double
quotes and declares `a`, which differs from the target, yet `in_our_file` is set.  With the
target `x` the directive line `#line 7`, NUL, ` "x"` has two double quotes and declares `x`,
the target, yet `in_our_file` is cleared. -/
theorem declared_name_is_not_decisive :
    (bytes "#line 7 \"a\"b\"").count 34 = 3 ∧
    declaredName (bytes "#line 7 \"a\"b\"") = bytes "a" ∧
    lineStep (bytes "a\"b") 1 (bytes "#line 7 \"a\"b\"" ++ 0 :: bytes "x\n")
      { in_our_file := false, i := 0, pre_lines := [none] }
      = .ok { in_our_file := true, i := 6, pre_lines := [none] } ∧
    (bytes "#line 7" ++ 0 :: bytes " \"x\"").count 34 = 2 ∧
    declaredName (bytes "#line 7" ++ 0 :: bytes " \"x\"") = bytes "x" ∧
    lineStep (bytes "x") 1 ((bytes "#line 7" ++ 0 :: bytes " \"x\"") ++ 0 :: bytes "x\n")
      { in_our_file := true, i := 0, pre_lines := [none] }
      = .ok { in_our_file := false, i := 6, pre_lines := [none] } := by
  decide

/-- C9, amended. For a target file name without double quote and a directive line with at
least two double quotes and no NUL before the first of them, the directive sets
`in_our_file` if and only if the declared file name, the bytes strictly between the first
and the second double quote, equals the target file name byte for byte. -/
theorem declared_name_decides (orig_fname line after : List Byte) (cnt : Nat)
    (hdir : hashLine.isPrefixOf line = true) (h2 : 2 ≤ line.count 34)
    (h0 : 0 ∉ line.takeWhile (fun c => c != 34)) (hq : 34 ∉ cstr orig_fname) :
    in_our_file_of orig_fname (line ++ 0 :: after)
      = .ok (decide (declaredName line = cstr orig_fname)) ∧
    ∀ t t1 : Tracker, lineStep orig_fname cnt (line ++ 0 :: after) t = .ok t1 →
      (t1.in_our_file = true ↔ declaredName line = cstr orig_fname) := by
  have hb := in_our_file_of_quoted orig_fname line after h2 h0 hq
  refine ⟨hb, ?_⟩
  intro t t1 h
  rw [lineStep_in_our_file orig_fname cnt line after t t1 _ hdir hb h]
  simp

set_option maxRecDepth 100000 in
/-- Witness of C9, amended: the target `src.t` and the directive `#line 12 "src.t"`. -/
theorem declared_name_decides_witness :
    in_our_file_of (bytes "src.t") (bytes "#line 12 \"src.t\"" ++ 0 :: bytes "x\n")
      = .ok (decide (declaredName (bytes "#line 12 \"src.t\"") = cstr (bytes "src.t"))) ∧
    ∀ t t1 : Tracker,
      lineStep (bytes "src.t") 20 (bytes "#line 12 \"src.t\"" ++ 0 :: bytes "x\n") t = .ok t1 →
      (t1.in_our_file = true ↔ declaredName (bytes "#line 12 \"src.t\"") = cstr (bytes "src.t")) :=
  declared_name_decides (bytes "src.t") (bytes "#line 12 \"src.t\"") (bytes "x\n") 20
    (by decide) (by decide) (by decide) (by decide)

/-! ## The line number of a directive -/

theorem decimalAux_spec (fuel : Nat) :
    ∀ (n : Nat) (acc : List Byte), n < fuel →
      ∃ ds : List Byte, decimalAux fuel n acc = ds ++ acc ∧ ds ≠ [] ∧
        (∀ d ∈ ds, isdigit d = true) ∧
        ds.foldl (fun a d => 10 * a + (d - 48)) 0 = n := by
  induction fuel with
  | zero => intro n acc h; omega
  | succ f ih =>
    intro n acc h
    unfold decimalAux
    by_cases hn : n < 10
    · refine ⟨[48 + n], by simp [hn], by simp, ?_, by simp⟩
      intro d hd
      simp only [List.mem_singleton] at hd
      rw [hd]
      simp only [isdigit, Bool.and_eq_true, decide_eq_true_eq]
      simp only [Byte] at *
      omega
    · obtain ⟨ds, h1, _, h3, h4⟩ := ih (n / 10) ((48 + n % 10) :: acc) (by omega)
      refine ⟨ds ++ [48 + n % 10], by simp [hn, h1], by simp, ?_, ?_⟩
      · intro d hd
        rcases List.mem_append.mp hd with hd | hd
        · exact h3 d hd
        · simp only [List.mem_singleton] at hd
          rw [hd]
          simp only [isdigit, Bool.and_eq_true, decide_eq_true_eq]
          simp only [Byte] at *
          omega
      · rw [List.foldl_append, h4]
        simp only [List.foldl_cons, List.foldl_nil]
        omega

theorem decimal_spec (n : Nat) :
    decimal n ≠ [] ∧ (∀ d ∈ decimal n, isdigit d = true) ∧
      (decimal n).foldl (fun a d => 10 * a + (d - 48)) 0 = n := by
  obtain ⟨ds, h1, h2, h3, h4⟩ := decimalAux_spec (n + 1) n [] (by omega)
  have : decimal n = ds := by simp [decimal, h1]
  rw [this]
  exact ⟨h2, h3, h4⟩

theorem atoi_decimal (n : Nat) (c : Byte) (r : List Byte) (hc : isdigit c = false) :
    atoi (decimal n ++ c :: r) = toInt n := by
  obtain ⟨hne, hdig, hval⟩ := decimal_spec n
  obtain ⟨d, ds, hds⟩ := List.exists_cons_of_ne_nil hne
  have hd : isdigit d = true := hdig d (by simp [hds])
  have hd' : 48 ≤ d ∧ d ≤ 57 := by
    simpa [isdigit] using hd
  have hsp : isspace d = false := by
    simp only [isspace, Bool.or_eq_false_iff, Bool.and_eq_false_iff, decide_eq_false_iff_not,
      beq_eq_false_iff_ne]
    simp only [Byte] at *
    omega
  have h1 : (decimal n ++ c :: r).dropWhile isspace = decimal n ++ c :: r := by
    rw [hds, List.cons_append, List.dropWhile_cons_of_neg (by simp [hsp])]
  have h45 : ((decimal n ++ c :: r).head? == some 45) = false := by
    rw [hds]
    simp only [List.cons_append, List.head?_cons, beq_eq_false_iff_ne, ne_eq, Option.some.injEq]
    simp only [Byte] at *
    omega
  have h43 : ((decimal n ++ c :: r).head? == some 43) = false := by
    rw [hds]
    simp only [List.cons_append, List.head?_cons, beq_eq_false_iff_ne, ne_eq, Option.some.injEq]
    simp only [Byte] at *
    omega
  unfold atoi
  simp only [h1, h45, h43, Bool.or_self, Bool.false_eq_true, if_false]
  rw [takeWhile_append_stop isdigit _ _ _ hdig hc, hval]

theorem cstr_append_of_nonzero (a b : List Byte) (h : 0 ∉ a) : cstr (a ++ b) = a ++ cstr b := by
  unfold cstr
  induction a with
  | nil => rfl
  | cons x xs ih =>
    have hx : x ≠ 0 := fun h0 => h (by simp [h0])
    rw [List.cons_append, List.takeWhile_cons_of_pos (by simpa using hx),
      ih (fun hm => h (List.mem_cons_of_mem _ hm)), List.cons_append]

theorem isPrefixOf_before_zero (a : List Byte) :
    ∀ (x y z : List Byte), 0 ∉ a → a.isPrefixOf (x ++ 0 :: y) = a.isPrefixOf (x ++ 0 :: z) := by
  induction a with
  | nil => intro x y z _; simp [List.isPrefixOf]
  | cons b bs ih =>
    intro x y z h
    have hb : (b == (0 : Byte)) = false := by
      rw [beq_eq_false_iff_ne]
      exact fun h0 => h (by simp [h0])
    cases x with
    | nil => simp [List.isPrefixOf, hb]
    | cons e es =>
      have e1 : ∀ w : List Byte, (b :: bs).isPrefixOf ((e :: es) ++ 0 :: w) =
          (b == e && bs.isPrefixOf (es ++ 0 :: w)) := fun _ => rfl
      rw [e1, e1, ih es y z (fun hm => h (List.mem_cons_of_mem _ hm))]

theorem digit_ne_zero_quote (d : Byte) (h : isdigit d = true) : (d != 0 && d != 34) = true := by
  have hd : 48 ≤ d ∧ d ≤ 57 := by simpa [isdigit] using h
  simp only [Bool.and_eq_true, bne_iff_ne, ne_eq]
  simp only [Byte] at *
  omega

theorem lineStep_numbered (orig_fname : List Byte) (cnt N : Nat) (f r after : List Byte)
    (t : Tracker) (hN : (N : Int) ≤ INT_MAX) :
    lineStep orig_fname cnt
        ((hashLine ++ decimal N ++ 32 :: 34 :: (f ++ 34 :: r)) ++ 0 :: after) t
      = .ok { in_our_file := (cstr orig_fname ++ [34]).isPrefixOf (f ++ 34 :: (r ++ [0])),
              i := (N : Int) - 1, pre_lines := t.pre_lines } := by
  obtain ⟨_, hdig, _⟩ := decimal_spec N
  have hmem : (hashLine ++ decimal N ++ 32 :: 34 :: (f ++ 34 :: r)) ++ 0 :: after =
      hashLine ++ (decimal N ++ 32 :: 34 :: (f ++ 34 :: (r ++ 0 :: after))) := by
    simp [List.append_assoc]
  have hmem2 : hashLine ++ (decimal N ++ 32 :: 34 :: (f ++ 34 :: (r ++ 0 :: after))) =
      (hashLine ++ (decimal N ++ [32])) ++ 34 :: (f ++ 34 :: (r ++ 0 :: after)) := by
    simp [List.append_assoc]
  have hdec0 : 0 ∉ decimal N := by
    intro h
    have := hdig 0 h
    simp [isdigit] at this
  -- the file name
  have hfile : in_our_file_of orig_fname
      (hashLine ++ (decimal N ++ 32 :: 34 :: (f ++ 34 :: (r ++ 0 :: after))))
      = .ok ((cstr orig_fname ++ [34]).isPrefixOf (f ++ 34 :: (r ++ [0]))) := by
    unfold in_our_file_of
    rw [hmem2, dropWhile_append_stop _ _ _ _ _ (by decide)]
    · simp only [List.drop_succ_cons, List.drop_zero]
      rw [sameFile_decided _ _ (zero_not_mem_cstr orig_fname) (by simp)]
      congr 1
      have hz : 0 ∉ cstr orig_fname ++ [34] := by
        intro h
        rcases List.mem_append.mp h with h | h
        · exact zero_not_mem_cstr orig_fname h
        · simp at h
      have e1 : f ++ 34 :: (r ++ 0 :: after) = (f ++ 34 :: r) ++ 0 :: after := by
        simp [List.append_assoc]
      have e2 : f ++ 34 :: (r ++ [0]) = (f ++ 34 :: r) ++ 0 :: [] := by
        simp [List.append_assoc]
      rw [e1, e2]
      exact isPrefixOf_before_zero _ _ _ _ hz
    · intro x hx
      rcases List.mem_append.mp hx with hx | hx
      · have hall : ∀ y ∈ hashLine, (y != 0 && y != 34) = true := by decide
        exact hall x hx
      · rcases List.mem_append.mp hx with hx | hx
        · exact digit_ne_zero_quote x (hdig x hx)
        · simp only [List.mem_singleton] at hx
          rw [hx]
          rfl
  -- the number
  have hnum : atoi (List.drop 6
      (cstr (hashLine ++ (decimal N ++ 32 :: 34 :: (f ++ 34 :: (r ++ 0 :: after)))))) = .ok (N : Int) := by
    rw [cstr_append_of_nonzero _ _ (by decide), cstr_append_of_nonzero _ _ hdec0]
    have h6 : List.drop 6 (hashLine ++ (decimal N ++
        cstr (32 :: 34 :: (f ++ 34 :: (r ++ 0 :: after))))) =
        decimal N ++ 32 :: cstr (34 :: (f ++ 34 :: (r ++ 0 :: after))) := by
      simp [hashLine, cstr]
    rw [h6, atoi_decimal _ _ _ (by decide)]
    unfold toInt
    have : INT_MIN ≤ (N : Int) := by
      unfold INT_MIN
      omega
    simp [this, hN]
  have hpred : toInt ((N : Int) - 1) = .ok ((N : Int) - 1) := by
    unfold toInt
    have h1 : INT_MIN ≤ (N : Int) - 1 := by
      unfold INT_MIN
      omega
    have h2 : (N : Int) - 1 ≤ INT_MAX := by omega
    simp [h1, h2]
  rw [hmem]
  unfold lineStep
  have hp : hashLine.isPrefixOf
      (hashLine ++ (decimal N ++ 32 :: 34 :: (f ++ 34 :: (r ++ 0 :: after)))) = true :=
    isPrefixOf_append_right _ _ _ (by decide)
  rw [hp]
  simp only [if_true]
  unfold lineDirective
  rw [hfile, hnum]
  simp only [hpred]

/-- C10 as stated fails. The directive `#line 4294967296 "f"` has a decimal number whose
value no `int` holds: `atoi` is undefined on it and no state with `i = 4294967296 - 1`
results. -/
theorem line_number_beyond_int :
    lineStep (bytes "f") 1
      ((hashLine ++ decimal 4294967296 ++ 32 :: 34 :: (bytes "f" ++ 34 :: [])) ++ 0 :: [])
      { in_our_file := true, i := 0, pre_lines := [none] } = .error .intOverflow ∧
    ¬ ∃ t1 : Tracker, lineStep (bytes "f") 1
      ((hashLine ++ decimal 4294967296 ++ 32 :: 34 :: (bytes "f" ++ 34 :: [])) ++ 0 :: [])
      { in_our_file := true, i := 0, pre_lines := [none] } = .ok t1 ∧ t1.i = 4294967296 - 1 := by
  have h : lineStep (bytes "f") 1
      ((hashLine ++ decimal 4294967296 ++ 32 :: 34 :: (bytes "f" ++ 34 :: [])) ++ 0 :: [])
      { in_our_file := true, i := 0, pre_lines := [none] } = .error .intOverflow := by
    decide
  refine ⟨h, ?_⟩
  rintro ⟨t1, h1, _⟩
  rw [h] at h1
  cases h1

/-- C10, amended. For every decimal `N` from 0 to `INT_MAX = 2147483647`, every file name
`f`, every rest `r` of the line and every prior state, the directive `#line N "f"r` leaves
`i = N - 1`, a flag `in_our_file` that depends on the line and the target only, and
`pre_lines` untouched; so the result does not depend on the prior counter and flag, and
processing the directive again in the resulting state changes nothing. -/
theorem directive_reanchors (orig_fname f r : List Byte) (cnt N : Nat)
    (hN : (N : Int) ≤ INT_MAX) :
    ∃ b : Bool,
      (∀ (after : List Byte) (t : Tracker),
        lineStep orig_fname cnt
          ((hashLine ++ decimal N ++ 32 :: 34 :: (f ++ 34 :: r)) ++ 0 :: after) t
          = .ok { in_our_file := b, i := (N : Int) - 1, pre_lines := t.pre_lines }) ∧
      (∀ (after after2 : List Byte) (t t1 : Tracker),
        lineStep orig_fname cnt
          ((hashLine ++ decimal N ++ 32 :: 34 :: (f ++ 34 :: r)) ++ 0 :: after) t = .ok t1 →
        lineStep orig_fname cnt
          ((hashLine ++ decimal N ++ 32 :: 34 :: (f ++ 34 :: r)) ++ 0 :: after2) t1 = .ok t1) := by
  refine ⟨(cstr orig_fname ++ [34]).isPrefixOf (f ++ 34 :: (r ++ [0])), ?_, ?_⟩
  · intro after t
    exact lineStep_numbered orig_fname cnt N f r after t hN
  · intro after after2 t t1 h
    rw [lineStep_numbered orig_fname cnt N f r after t hN] at h
    rw [lineStep_numbered orig_fname cnt N f r after2 t1 hN]
    cases h
    rfl

/-- Witness of C10, amended: the directive `#line 7 "src.t"` with the target `src.t`. -/
theorem directive_reanchors_witness :
    ∃ b : Bool,
      (∀ (after : List Byte) (t : Tracker),
        lineStep (bytes "src.t") 9
          ((hashLine ++ decimal 7 ++ 32 :: 34 :: (bytes "src.t" ++ 34 :: [])) ++ 0 :: after) t
          = .ok { in_our_file := b, i := ((7 : Nat) : Int) - 1, pre_lines := t.pre_lines }) ∧
      (∀ (after after2 : List Byte) (t t1 : Tracker),
        lineStep (bytes "src.t") 9
          ((hashLine ++ decimal 7 ++ 32 :: 34 :: (bytes "src.t" ++ 34 :: [])) ++ 0 :: after) t
            = .ok t1 →
        lineStep (bytes "src.t") 9
          ((hashLine ++ decimal 7 ++ 32 :: 34 :: (bytes "src.t" ++ 34 :: [])) ++ 0 :: after2) t1
            = .ok t1) :=
  directive_reanchors (bytes "src.t") (bytes "src.t") [] 9 7 (by decide)

/-! ## The number of lines written by a completed run -/

theorem countLoop_eq (l : List Byte) (i : Nat) : countLoop l i = i + l.count 10 := by
  induction l generalizing i with
  | nil => simp [countLoop]
  | cons c cs ih =>
    unfold countLoop
    rw [ih, List.count_cons]
    by_cases hc : c = 10
    · simp [hc]
      omega
    · simp [hc]

theorem orig_cnt_eq (orig : List Byte) : orig_cnt orig = orig.count 10 + 1 := by
  unfold orig_cnt
  rw [countLoop_eq]
  omega

theorem lineStarts_length (l : List Byte) (p : Nat) : (lineStarts l p).length = l.count 10 := by
  induction l generalizing p with
  | nil => simp [lineStarts]
  | cons c cs ih =>
    unfold lineStarts
    rw [List.count_cons]
    by_cases hc : c = 10
    · simp [hc, ih]
    · simp [hc, ih]

theorem orig_lines_length (orig : List Byte) : (orig_lines orig).length = orig_cnt orig := by
  simp [orig_lines, lineStarts_length, orig_cnt_eq]

theorem newline_not_mem_terminated (orig : List Byte) : 10 ∉ terminated orig := by
  unfold terminated
  intro h
  rcases List.mem_append.mp h with h | h
  · obtain ⟨c, _, hc⟩ := List.mem_map.mp h
    by_cases h10 : c = 10
    · simp [h10] at hc
    · simp only [h10, if_false] at hc
  · simp at h

theorem newline_not_mem_orig_line (orig l : List Byte) (h : l ∈ orig_lines orig) : 10 ∉ l := by
  unfold orig_lines at h
  obtain ⟨s, _, hs⟩ := List.mem_map.mp h
  intro h10
  rw [← hs] at h10
  unfold cstr at h10
  exact newline_not_mem_terminated orig (List.mem_of_mem_drop ((List.takeWhile_sublist _).subset h10))

theorem cstr_append_zero (a b : List Byte) : cstr (a ++ 0 :: b) = cstr a := by
  unfold cstr
  induction a with
  | nil => simp [List.takeWhile]
  | cons x xs ih =>
    by_cases hx : x = 0
    · simp [hx, List.takeWhile]
    · rw [List.cons_append, List.takeWhile_cons_of_pos (by simpa using hx),
        List.takeWhile_cons_of_pos (by simpa using hx), ih]

theorem newline_not_mem_line_cstr (rest after : List Byte) :
    10 ∉ cstr (rest.takeWhile (fun b => b != 10) ++ 0 :: after) := by
  rw [cstr_append_zero]
  unfold cstr
  intro h
  have := List.mem_takeWhile_imp ((List.takeWhile_sublist _).subset h)
  simp at this

theorem assign_newlineFree (pl : List (Option (List Byte))) (j : Nat) (s : List Byte)
    (hpl : ∀ x, some x ∈ pl → 10 ∉ x) (hs : 10 ∉ s) :
    ∀ x, some x ∈ assign pl j s → 10 ∉ x := by
  intro x hx
  unfold assign at hx
  cases hold : pl.getD j none with
  | none =>
    rw [hold] at hx
    rcases List.mem_or_eq_of_mem_set hx with h | h
    · exact hpl x h
    · cases h
      exact hs
  | some l =>
    rw [hold] at hx
    rcases List.mem_or_eq_of_mem_set hx with h | h
    · exact hpl x h
    · cases h
      have hl : some l ∈ pl := by
        rw [List.getD_eq_getElem?_getD] at hold
        cases hg : pl[j]? with
        | none => simp [hg] at hold
        | some v =>
          simp only [hg, Option.getD_some] at hold
          rw [← hold]
          exact List.getElem?_mem hg
      intro h10
      rcases List.mem_append.mp h10 with h | h
      · exact hpl l hl h
      · exact hs h

theorem lineStep_newlineFree (fname : List Byte) (cnt : Nat) (rest after : List Byte)
    (t t1 : Tracker) (hpl : ∀ x, some x ∈ t.pre_lines → 10 ∉ x)
    (h : lineStep fname cnt (rest.takeWhile (fun b => b != 10) ++ 0 :: after) t = .ok t1) :
    ∀ x, some x ∈ t1.pre_lines → 10 ∉ x := by
  unfold lineStep at h
  split at h
  · unfold lineDirective at h
    cases h1 : in_our_file_of fname (rest.takeWhile (fun b => b != 10) ++ 0 :: after) with
    | error e => simp [h1] at h
    | ok f =>
      cases h2 : atoi (List.drop 6 (cstr (rest.takeWhile (fun b => b != 10) ++ 0 :: after))) with
      | error e => simp [h1, h2] at h
      | ok n =>
        cases h3 : toInt (n - 1) with
        | error e => simp [h1, h2, h3] at h
        | ok i =>
          simp only [h1, h2, h3, Except.ok.injEq] at h
          rw [← h]
          exact hpl
  · unfold assignLine at h
    cases h3 : toInt (t.i + 1) with
    | error e =>
      exfalso
      rw [h3] at h
      split at h
      · split at h <;> cases h
      · cases h
    | ok j =>
      rw [h3] at h
      split at h
      · split at h
        · cases h
        · simp only [Except.ok.injEq] at h
          rw [← h]
          exact assign_newlineFree _ _ _ hpl (newline_not_mem_line_cstr rest after)
      · simp only [Except.ok.injEq] at h
        rw [← h]
        exact hpl

theorem divvyLoop_newlineFree (fname : List Byte) (cnt fuel : Nat) :
    ∀ (rest : List Byte) (t0 t : Tracker), (∀ x, some x ∈ t0.pre_lines → 10 ∉ x) →
      divvyLoop fname cnt fuel rest t0 = .ok t → ∀ x, some x ∈ t.pre_lines → 10 ∉ x := by
  induction fuel with
  | zero =>
    intro rest t0 t hpl h
    cases rest with
    | nil =>
      simp only [divvyLoop, Except.ok.injEq] at h
      rw [← h]
      exact hpl
    | cons c cs => simp [divvyLoop] at h
  | succ n ih =>
    intro rest t0 t hpl h
    cases rest with
    | nil =>
      simp only [divvyLoop, Except.ok.injEq] at h
      rw [← h]
      exact hpl
    | cons c cs =>
      rw [divvyLoop_succ_cons] at h
      cases hstep : lineStep fname cnt
          ((c :: cs).takeWhile (fun b => b != 10) ++
            0 :: ((c :: cs).dropWhile (fun b => b != 10)).drop 1) t0 with
      | error e =>
        rw [hstep] at h
        cases h
      | ok t1 =>
        rw [hstep] at h
        exact ih _ t1 t (lineStep_newlineFree fname cnt _ _ t0 t1 hpl hstep) h

theorem newline_not_mem_mergeLine (pre : Option (List Byte)) (orig : List Byte)
    (ho : 10 ∉ orig) (hp : 10 ∉ pre.getD []) : 10 ∉ mergeLine pre orig := by
  unfold mergeLine
  split
  · exact ho
  · rw [padLoop_eq_replicate _ _ _ (le_refl _)]
    intro h
    rcases List.mem_append.mp h with h | h
    · have := List.eq_of_mem_replicate h
      simp at this
    · exact hp h

theorem mergeLoop_count (ol : List (List Byte)) (pl : List (Option (List Byte)))
    (hol : ∀ l ∈ ol, 10 ∉ l) (hpl : ∀ x, some x ∈ pl → 10 ∉ x) (n : Nat) :
    ∀ i, (mergeLoop ol pl n i).count 10 = n := by
  induction n with
  | zero => intro i; simp [mergeLoop]
  | succ n ih =>
    intro i
    unfold mergeLoop
    have ho : 10 ∉ ol.getD i [] := by
      rw [List.getD_eq_getElem?_getD]
      cases hg : ol[i]? with
      | none => simp
      | some l => exact hol l (List.getElem?_mem hg)
    have hp : 10 ∉ (pl.getD i none).getD [] := by
      rw [List.getD_eq_getElem?_getD]
      cases hg : pl[i]? with
      | none => simp
      | some v =>
        cases v with
        | none => simp
        | some x => exact hpl x (List.getElem?_mem hg)
    rw [List.count_append, List.count_cons, ih (i + 1),
      List.count_eq_zero_of_not_mem (newline_not_mem_mergeLine _ _ ho hp)]
    simp

/-- Every run that reaches the end of `main` writes as many newline bytes as the original
buffer has logical lines: its number of newline bytes plus one. -/
theorem completed_run_line_count (orig_fname orig pre out : List Byte)
    (h : ppmerge orig_fname orig pre = .ok out) :
    out.count 10 = orig.count 10 + 1 := by
  unfold ppmerge at h
  cases hd : divvy orig_fname (orig_cnt orig) pre with
  | error e => simp [hd] at h
  | ok t =>
    simp only [hd, Except.ok.injEq] at h
    rw [← h, mergeLoop_count _ _ (newline_not_mem_orig_line orig) _ _ 0, orig_cnt_eq]
    refine divvyLoop_newlineFree orig_fname _ _ pre _ t ?_ hd
    intro x hx
    simp [List.mem_replicate] at hx

/-- The merge loop writes, for the indices `i`, `i + 1`, ..., `i + n - 1` in turn, the line
of that index followed by one newline. -/
theorem mergeLoop_eq_flatten (ol : List (List Byte)) (pl : List (Option (List Byte))) (n : Nat) :
    ∀ i, mergeLoop ol pl n i =
      ((List.range n).map
        (fun j => mergeLine (pl.getD (i + j) none) (ol.getD (i + j) []) ++ [10])).flatten := by
  induction n with
  | zero => intro i; simp [mergeLoop]
  | succ n ih =>
    intro i
    unfold mergeLoop
    rw [ih (i + 1), List.range_succ_eq_map]
    simp only [List.map_cons, List.map_map, List.flatten_cons, Nat.add_zero, List.append_assoc,
      List.singleton_append]
    have hmap : List.map (fun j => mergeLine (pl.getD (i + 1 + j) none) (ol.getD (i + 1 + j) [])
          ++ [10]) (List.range n) =
        List.map ((fun j => mergeLine (pl.getD (i + j) none) (ol.getD (i + j) []) ++ [10])
          ∘ Nat.succ) (List.range n) := by
      apply List.map_congr_left
      intro j _
      simp only [Function.comp]
      have : i + 1 + j = i + (j + 1) := by omega
      rw [this]
    rw [hmap]


/-- Every run that reaches the end of `main` writes one line per logical line of the
original buffer: the output is made of `orig_cnt` lines without newline byte, each followed
by one newline, and `orig_cnt` is the number of newline bytes of the original plus one. -/
theorem completed_run_lines (orig_fname orig pre out : List Byte)
    (h : ppmerge orig_fname orig pre = .ok out) :
    ∃ lines : List (List Byte), lines.length = orig.count 10 + 1 ∧
      (∀ l ∈ lines, 10 ∉ l) ∧ out = (lines.map (fun l => l ++ [10])).flatten := by
  unfold ppmerge at h
  cases hd : divvy orig_fname (orig_cnt orig) pre with
  | error e => simp [hd] at h
  | ok t =>
    simp only [hd, Except.ok.injEq] at h
    have hpl : ∀ x, some x ∈ t.pre_lines → 10 ∉ x := by
      refine divvyLoop_newlineFree orig_fname _ _ pre _ t ?_ hd
      intro x hx
      simp [List.mem_replicate] at hx
    refine ⟨(List.range (orig_cnt orig)).map
      (fun j => mergeLine (t.pre_lines.getD j none) ((orig_lines orig).getD j [])), ?_, ?_, ?_⟩
    · simp [orig_cnt_eq]
    · intro l hl
      obtain ⟨j, _, hj⟩ := List.mem_map.mp hl
      rw [← hj]
      apply newline_not_mem_mergeLine
      · rw [List.getD_eq_getElem?_getD]
        cases hg : (orig_lines orig)[j]? with
        | none => simp
        | some l => exact newline_not_mem_orig_line orig l (List.getElem?_mem hg)
      · rw [List.getD_eq_getElem?_getD]
        cases hg : t.pre_lines[j]? with
        | none => simp
        | some v =>
          cases v with
          | none => simp
          | some x => exact hpl x (List.getElem?_mem hg)
    · rw [← h, mergeLoop_eq_flatten, List.map_map]
      congr 1
      apply List.map_congr_left
      intro j _
      simp [Function.comp]

/-! ## The loop bound of the embedding -/

theorem toInt_ne_fuel (n : Int) : toInt n ≠ .error .fuel := by
  unfold toInt
  split <;> simp

theorem atoi_ne_fuel (s : List Byte) : atoi s ≠ .error .fuel := by
  unfold atoi
  exact toInt_ne_fuel _

theorem sameFile_ne_fuel (name : List Byte) : ∀ view, sameFile name view ≠ .error .fuel := by
  induction name with
  | nil =>
    intro view
    cases view <;> simp [sameFile]
  | cons n ns ih =>
    intro view
    cases view with
    | nil => simp [sameFile]
    | cons v vs =>
      simp only [sameFile]
      split
      · exact ih vs
      · simp

theorem lineStep_ne_fuel (fname : List Byte) (cnt : Nat) (mem : List Byte) (t : Tracker) :
    lineStep fname cnt mem t ≠ .error .fuel := by
  unfold lineStep
  split
  · unfold lineDirective in_our_file_of
    cases h1 : sameFile (cstr fname) (List.drop 1 (List.dropWhile (fun c => c != 0 && c != 34) mem)) with
    | error e =>
      intro h
      simp only [Except.error.injEq] at h
      rw [h] at h1
      exact sameFile_ne_fuel _ _ h1
    | ok f =>
      cases h2 : atoi (List.drop 6 (cstr mem)) with
      | error e =>
        intro h
        simp only [Except.error.injEq] at h
        rw [h] at h2
        exact atoi_ne_fuel _ h2
      | ok n =>
        simp only
        cases h3 : toInt (n - 1) with
        | error e =>
          intro h
          simp only [Except.error.injEq] at h
          rw [h] at h3
          exact toInt_ne_fuel _ h3
        | ok i => simp
  · unfold assignLine
    cases h3 : toInt (t.i + 1) with
    | error e =>
      have he : e ≠ .fuel := by
        intro h
        rw [h] at h3
        exact toInt_ne_fuel _ h3
      split
      · split <;> simp [he]
      · simp [he]
    | ok j =>
      split
      · split <;> simp
      · simp

theorem length_after_line (c : Byte) (cs : List Byte) :
    (((c :: cs).dropWhile (fun b => b != 10)).drop 1).length ≤ cs.length := by
  have h := (List.dropWhile_sublist (fun b => b != 10) (l := c :: cs)).length_le
  rw [List.length_drop]
  simp only [List.length_cons] at h
  omega

/-- The loop bound of `divvy` is never exhausted: every pass consumes at least one byte. -/
theorem divvyLoop_ne_fuel (fname : List Byte) (cnt fuel : Nat) :
    ∀ (rest : List Byte) (t : Tracker), rest.length ≤ fuel →
      divvyLoop fname cnt fuel rest t ≠ .error .fuel := by
  induction fuel with
  | zero =>
    intro rest t h
    cases rest with
    | nil => simp [divvyLoop]
    | cons c cs => simp at h
  | succ n ih =>
    intro rest t h
    cases rest with
    | nil => simp [divvyLoop]
    | cons c cs =>
      rw [divvyLoop_succ_cons]
      cases hstep : lineStep fname cnt
          ((c :: cs).takeWhile (fun b => b != 10) ++
            0 :: ((c :: cs).dropWhile (fun b => b != 10)).drop 1) t with
      | error e =>
        intro he
        simp only [Except.error.injEq] at he
        rw [he] at hstep
        exact lineStep_ne_fuel _ _ _ _ hstep
      | ok t1 =>
        have hlen := length_after_line c cs
        simp only [List.length_cons] at h
        exact ih _ t1 (by omega)

theorem divvy_ne_fuel (fname : List Byte) (cnt : Nat) (pre : List Byte) :
    divvy fname cnt pre ≠ .error .fuel :=
  divvyLoop_ne_fuel fname cnt pre.length pre _ (le_refl _)

/-! ## Further claims on the merge of one line -/

theorem restored_false_of_trim_ne_nil (pre : Option (List Byte)) (orig : List Byte)
    (h : (pre.getD []).dropWhile isspace ≠ []) : restored pre orig = false := by
  unfold restored restores
  cases hp : (pre.getD []).dropWhile isspace with
  | nil => exact absurd hp h
  | cons a l => rfl

theorem takeWhile_isspace_replicate_append (n : Nat) (l : List Byte) :
    (List.replicate n 32 ++ l).takeWhile isspace = List.replicate n 32 ++ l.takeWhile isspace := by
  induction n with
  | zero => simp
  | succ n ih =>
    rw [List.replicate_succ, List.cons_append, List.takeWhile_cons_of_pos (by decide), ih,
      List.cons_append]

theorem dropWhile_isspace_replicate_append (n : Nat) (l : List Byte) :
    (List.replicate n 32 ++ l).dropWhile isspace = l.dropWhile isspace := by
  induction n with
  | zero => simp
  | succ n ih =>
    rw [List.replicate_succ, List.cons_append, List.dropWhile_cons_of_pos (by decide), ih]

/-- C12. Suffix property: when the preprocessed content of a line has a non-empty left-trim
(what is left behind its leading white space), the line written ends with that trimmed
content, whatever the original line is. -/
theorem output_ends_with_trimmed_pre (pre : Option (List Byte)) (orig : List Byte)
    (h : (pre.getD []).dropWhile isspace ≠ []) :
    ∃ front : List Byte,
      mergeLine pre orig = front ++ (pre.getD []).dropWhile isspace := by
  refine ⟨List.replicate (origIndent orig - preIndent pre) 32
    ++ (pre.getD []).takeWhile isspace, ?_⟩
  rw [mergeLine_of_not_restored pre orig (restored_false_of_trim_ne_nil pre orig h),
    List.append_assoc, List.takeWhile_append_dropWhile]

set_option maxRecDepth 100000 in
/-- Witness of C12: the content `  x = 1;` against the original comment line `\t// note`. -/
theorem output_ends_with_trimmed_pre_witness :
    ∃ front : List Byte,
      mergeLine (some (bytes "  x = 1;")) (bytes "\t// note")
        = front ++ ((some (bytes "  x = 1;")).getD []).dropWhile isspace :=
  output_ends_with_trimmed_pre (some (bytes "  x = 1;")) (bytes "\t// note") (by decide)

/-- C13. No padding when the original is not deeper: for a line that is not
comment-restored and has `origIndent ≤ preIndent`, the line written is the preprocessed
content, nothing added and nothing removed. -/
theorem pre_unmodified_when_not_deeper (pre : Option (List Byte)) (orig : List Byte)
    (hnot : restored pre orig = false) (hle : origIndent orig ≤ preIndent pre) :
    mergeLine pre orig = pre.getD [] := by
  rw [mergeLine_of_not_restored pre orig hnot]
  have h0 : origIndent orig - preIndent pre = 0 := by omega
  rw [h0]
  rfl

set_option maxRecDepth 100000 in
/-- Witness of C13: the content `\t\treturn;` against the original line ` ret();`. -/
theorem pre_unmodified_when_not_deeper_witness :
    mergeLine (some (bytes "\t\treturn;")) (bytes " ret();") = (some (bytes "\t\treturn;")).getD [] :=
  pre_unmodified_when_not_deeper (some (bytes "\t\treturn;")) (bytes " ret();")
    (by decide) (by decide)

/-- C14. Indent alignment: for every `k`, when the original line has exactly `k` leading
white space bytes and the preprocessed content is non-empty and has no leading white space,
the line written is `k` space bytes followed by the content; the loop that writes the
padding in chunks of at most 100 writes exactly `k` spaces. -/
theorem aligned_to_original_indent (k : Nat) (orig content : List Byte)
    (hk : origIndent orig = k) (hne : content ≠ []) (hlead : preIndent (some content) = 0) :
    mergeLine (some content) orig = List.replicate k 32 ++ content ∧
    padLoop k 0 k = List.replicate k 32 := by
  refine ⟨?_, padLoop_eq_replicate k 0 k (by omega)⟩
  have htrim : ((some content).getD []).dropWhile isspace ≠ [] := by
    cases content with
    | nil => exact absurd rfl hne
    | cons c cs =>
      simp only [preIndent, Option.getD_some] at hlead
      simp only [Option.getD_some]
      by_cases hc : isspace c = true
      · rw [List.takeWhile_cons_of_pos hc] at hlead
        simp at hlead
      · rw [List.dropWhile_cons_of_neg hc]
        simp
  rw [mergeLine_of_not_restored _ orig (restored_false_of_trim_ne_nil _ orig htrim), hlead, hk]
  rfl

set_option maxRecDepth 100000 in
/-- Witness of C14: original `    int y;`, preprocessed `int y = FOO();`. -/
theorem aligned_to_original_indent_witness :
    mergeLine (some (bytes "int y = FOO();")) (bytes "    int y;")
      = List.replicate 4 32 ++ bytes "int y = FOO();" ∧
    padLoop 4 0 4 = List.replicate 4 32 :=
  aligned_to_original_indent 4 (bytes "    int y;") (bytes "int y = FOO();")
    (by decide) (by decide) (by decide)

/-- C19. Resulting indentation: when the preprocessed content of a line has a non-empty
left-trim, the line written is `origIndent - preIndent` spaces (none when the difference is
not positive), then the `preIndent` leading white space bytes of the content itself, then
the left-trimmed content; its leading white space is `max origIndent preIndent` bytes
long and what follows it is the left-trimmed content. -/
theorem resulting_indentation (pre : Option (List Byte)) (orig : List Byte)
    (h : (pre.getD []).dropWhile isspace ≠ []) :
    mergeLine pre orig =
      List.replicate (origIndent orig - preIndent pre) 32
        ++ ((pre.getD []).takeWhile isspace ++ (pre.getD []).dropWhile isspace) ∧
    ((pre.getD []).takeWhile isspace).length = preIndent pre ∧
    (origIndent orig - preIndent pre) + preIndent pre = max (origIndent orig) (preIndent pre) ∧
    ((mergeLine pre orig).takeWhile isspace).length = max (origIndent orig) (preIndent pre) ∧
    (mergeLine pre orig).dropWhile isspace = (pre.getD []).dropWhile isspace := by
  have hm := mergeLine_of_not_restored pre orig (restored_false_of_trim_ne_nil pre orig h)
  refine ⟨?_, rfl, by omega, ?_, ?_⟩
  · rw [hm, List.takeWhile_append_dropWhile]
  · rw [hm, takeWhile_isspace_replicate_append, List.length_append, List.length_replicate]
    unfold preIndent
    omega
  · rw [hm, dropWhile_isspace_replicate_append]

set_option maxRecDepth 100000 in
/-- Witness of C19: the content `\tx;` against the original line `    y;`. -/
theorem resulting_indentation_witness :
    mergeLine (some (bytes "\tx;")) (bytes "    y;") =
      List.replicate (origIndent (bytes "    y;") - preIndent (some (bytes "\tx;"))) 32
        ++ (((some (bytes "\tx;")).getD []).takeWhile isspace
          ++ ((some (bytes "\tx;")).getD []).dropWhile isspace) ∧
    (((some (bytes "\tx;")).getD []).takeWhile isspace).length = preIndent (some (bytes "\tx;")) ∧
    (origIndent (bytes "    y;") - preIndent (some (bytes "\tx;"))) + preIndent (some (bytes "\tx;"))
      = max (origIndent (bytes "    y;")) (preIndent (some (bytes "\tx;"))) ∧
    ((mergeLine (some (bytes "\tx;")) (bytes "    y;")).takeWhile isspace).length
      = max (origIndent (bytes "    y;")) (preIndent (some (bytes "\tx;"))) ∧
    (mergeLine (some (bytes "\tx;")) (bytes "    y;")).dropWhile isspace
      = ((some (bytes "\tx;")).getD []).dropWhile isspace :=
  resulting_indentation (some (bytes "\tx;")) (bytes "    y;") (by decide)

/-- A line that is a bare asterisk behind its leading white space is never restored: with
absent or white space content the line written holds white space only. -/
theorem bare_asterisk_never_restored (pre : Option (List Byte)) (orig : List Byte)
    (hpre : ∀ c ∈ pre.getD [], isspace c = true)
    (hstar : orig.dropWhile isspace = [42]) :
    mergeLine pre orig = List.replicate (origIndent orig - preIndent pre) 32 ++ pre.getD [] ∧
    mergeLine pre orig ≠ orig := by
  have hr : restored pre orig = false := by
    unfold restored restores
    rw [hstar, dropWhile_isspace_eq_nil _ hpre]
    decide
  have hm := mergeLine_of_not_restored pre orig hr
  refine ⟨hm, ?_⟩
  intro heq
  have h42 : (42 : Byte) ∈ orig := by
    have : (42 : Byte) ∈ orig.dropWhile isspace := by simp [hstar]
    exact (List.dropWhile_sublist _).subset this
  rw [← heq, hm] at h42
  rcases List.mem_append.mp h42 with h | h
  · have := List.eq_of_mem_replicate h
    simp at this
  · have := hpre 42 h
    simp [isspace] at this

set_option maxRecDepth 100000 in
/-- C15 fails on the code. In the original `/*`, ` *`, ` */` the middle line is a bare
asterisk behind one space.  Without preprocessed content for it the line written is one
space, not ` *`: the pattern `"*\n"` of line 191 would match an asterisk followed by a
newline, but line 110 has replaced every newline by NUL, so a terminated line never
matches it. -/
theorem bare_asterisk_line_is_lost :
    ppmerge (bytes "src.t") (bytes "/*\n *\n */") (bytes "#line 4 \"src.t\"\nint x;\n")
      = .ok (bytes "/*\n \n */\n") ∧
    orig_lines (bytes "/*\n *\n */") = [bytes "/*", bytes " *", bytes " */"] ∧
    (bytes " *").dropWhile isspace = bytes "*" ∧
    mergeLine none (bytes " *") = bytes " " ∧
    mergeLine none (bytes " *") ≠ bytes " *" ∧
    restores [] (bytes "*\n") = true ∧ restores [] (bytes "*") = false := by
  decide

/-! ## The line splitter -/

theorem lineStarts_shift (l : List Byte) (p : Nat) :
    lineStarts l (p + 1) = (lineStarts l p).map (fun s => s + 1) := by
  induction l generalizing p with
  | nil => rfl
  | cons c cs ih =>
    unfold lineStarts
    by_cases hc : c = 10
    · simp only [hc, if_true, List.map_cons, ih]
    · simp only [hc, if_false, ih]

theorem cstr_terminated (l : List Byte) (h0 : 0 ∉ l) :
    cstr (terminated l) = l.takeWhile (fun c => c != 10) := by
  unfold terminated cstr
  induction l with
  | nil => rfl
  | cons c cs ih =>
    have hc0 : c ≠ 0 := fun h => h0 (by simp [h])
    have ih' := ih (fun h => h0 (List.mem_cons_of_mem _ h))
    by_cases hc : c = 10
    · subst hc
      simp [List.takeWhile]
    · simp only [List.map_cons, hc, if_false, List.cons_append]
      rw [List.takeWhile_cons_of_pos (by simpa using hc0),
        List.takeWhile_cons_of_pos (by simpa using hc), ih']

theorem terminated_drop (l : List Byte) (s : Nat) (hs : s ≤ l.length) :
    (terminated l).drop s = terminated (l.drop s) := by
  unfold terminated
  rw [List.drop_append_of_le_length (by simpa using hs), List.map_drop]

theorem lineStarts_le (l : List Byte) (p s : Nat) (h : s ∈ lineStarts l p) :
    p < s ∧ s ≤ p + l.length := by
  induction l generalizing p with
  | nil => simp [lineStarts] at h
  | cons c cs ih =>
    unfold lineStarts at h
    by_cases hc : c = 10
    · simp only [hc, if_true, List.mem_cons] at h
      rcases h with h | h
      · subst h
        simp
      · have := ih (p + 1) h
        simp only [List.length_cons]
        omega
    · simp only [hc, if_false] at h
      have := ih (p + 1) h
      simp only [List.length_cons]
      omega

/-- The slices of the splitter on a buffer without NUL, as parts of the buffer. -/
theorem orig_lines_eq_map (orig : List Byte) (h0 : 0 ∉ orig) :
    orig_lines orig =
      (0 :: lineStarts orig 0).map (fun s => (orig.drop s).takeWhile (fun c => c != 10)) := by
  unfold orig_lines
  apply List.map_congr_left
  intro s hs
  have hle : s ≤ orig.length := by
    rcases List.mem_cons.mp hs with h | h
    · omega
    · have := (lineStarts_le orig 0 s h).2
      omega
  rw [terminated_drop orig s hle]
  exact cstr_terminated _ (fun h => h0 (List.mem_of_mem_drop h))

theorem slices_cons (c : Byte) (cs : List Byte) :
    (0 :: lineStarts (c :: cs) 0).map (fun s => ((c :: cs).drop s).takeWhile (fun b => b != 10)) =
      if c = 10 then
        [] :: (0 :: lineStarts cs 0).map (fun s => (cs.drop s).takeWhile (fun b => b != 10))
      else
        ((0 :: lineStarts cs 0).map
          (fun s => (cs.drop s).takeWhile (fun b => b != 10))).modifyHead (List.cons c) := by
  by_cases hc : c = 10
  · subst hc
    simp only [if_true, lineStarts, lineStarts_shift, List.map_cons, List.map_map, List.drop_zero]
    simp [List.takeWhile, Function.comp]
  · simp only [hc, if_false, lineStarts, lineStarts_shift, List.map_cons, List.map_map,
      List.drop_zero, List.modifyHead]
    rw [List.takeWhile_cons_of_pos (by simpa using hc)]
    simp [Function.comp]

theorem orig_lines_eq_splitOn (orig : List Byte) (h0 : 0 ∉ orig) :
    orig_lines orig = orig.splitOn 10 := by
  rw [orig_lines_eq_map orig h0]
  clear h0
  induction orig with
  | nil => rfl
  | cons c cs ih =>
    rw [slices_cons, ih]
    have e : List.splitOn 10 (c :: cs) =
        if (c == 10) = true then [] :: List.splitOn 10 cs
        else (List.splitOn 10 cs).modifyHead (List.cons c) :=
      List.splitOnP_cons (fun x => x == 10) c cs
    rw [e]
    by_cases hc : c = 10
    · simp [hc]
    · simp [hc]

/-- Where the slices start: entry `i` of the list of starts is the offset just behind the
newline that has `i` newlines before it. -/
theorem lineStarts_spec (l : List Byte) :
    ∀ (p i s : Nat), (lineStarts l p)[i]? = some s →
      p < s ∧ l[s - 1 - p]? = some 10 ∧ (l.take (s - 1 - p)).count 10 = i := by
  induction l with
  | nil => intro p i s h; simp [lineStarts] at h
  | cons c cs ih =>
    intro p i s h
    unfold lineStarts at h
    by_cases hc : c = 10
    · simp only [hc, if_true] at h
      cases i with
      | zero =>
        simp only [List.getElem?_cons_zero, Option.some.injEq] at h
        subst h
        have e : p + 1 - 1 - p = 0 := by omega
        rw [e]
        simp [hc]
      | succ j =>
        simp only [List.getElem?_cons_succ] at h
        obtain ⟨h1, h2, h3⟩ := ih (p + 1) j s h
        have e : s - 1 - p = (s - 1 - (p + 1)) + 1 := by omega
        rw [e]
        refine ⟨by omega, by simpa using h2, ?_⟩
        rw [List.take_succ_cons, List.count_cons, h3]
        simp [hc]
    · simp only [hc, if_false] at h
      obtain ⟨h1, h2, h3⟩ := ih (p + 1) i s h
      have e : s - 1 - p = (s - 1 - (p + 1)) + 1 := by omega
      rw [e]
      refine ⟨by omega, by simpa using h2, ?_⟩
      rw [List.take_succ_cons, List.count_cons, h3]
      simp [hc]

/-- C16. The line splitter equals the split on newline: for an original buffer without NUL
the slices are the parts of the buffer between its newlines; there are as many as newline
bytes plus one; none holds a newline; joined by single newlines they give the buffer back;
slice 0 starts at the start of the buffer and slice `i + 1` at the offset just behind the
newline that has `i` newlines before it; the empty buffer has exactly one, empty, slice. -/
theorem splitter_is_split_on_newline (orig : List Byte) (h0 : 0 ∉ orig) :
    orig_lines orig = orig.splitOn 10 ∧
    (orig_lines orig).length = orig.count 10 + 1 ∧
    (∀ l ∈ orig_lines orig, 10 ∉ l) ∧
    [10].intercalate (orig_lines orig) = orig ∧
    (orig_lines orig)[0]? = some (orig.takeWhile (fun c => c != 10)) ∧
    (∀ i s : Nat, (lineStarts orig 0)[i]? = some s →
      0 < s ∧ orig[s - 1]? = some 10 ∧ (orig.take (s - 1)).count 10 = i ∧
      (orig_lines orig)[i + 1]? = some ((orig.drop s).takeWhile (fun c => c != 10))) ∧
    orig_lines [] = [[]] := by
  refine ⟨orig_lines_eq_splitOn orig h0, ?_, newline_not_mem_orig_line orig, ?_, ?_, ?_, rfl⟩
  · rw [orig_lines_length, orig_cnt_eq]
  · rw [orig_lines_eq_splitOn orig h0]
    exact List.intercalate_splitOn orig 10
  · rw [orig_lines_eq_map orig h0]
    simp
  · intro i s h
    obtain ⟨h1, h2, h3⟩ := lineStarts_spec orig 0 i s h
    refine ⟨h1, by simpa using h2, by simpa using h3, ?_⟩
    rw [orig_lines_eq_map orig h0]
    simp [h]

/-- Witness of C16: the buffer `ab\n\ncd` with the slices `ab`, the empty one and `cd`. -/
theorem splitter_is_split_on_newline_witness :
    orig_lines (bytes "ab\n\ncd") = (bytes "ab\n\ncd").splitOn 10 ∧
    (orig_lines (bytes "ab\n\ncd")).length = (bytes "ab\n\ncd").count 10 + 1 ∧
    (∀ l ∈ orig_lines (bytes "ab\n\ncd"), 10 ∉ l) ∧
    [10].intercalate (orig_lines (bytes "ab\n\ncd")) = bytes "ab\n\ncd" ∧
    (orig_lines (bytes "ab\n\ncd"))[0]? = some ((bytes "ab\n\ncd").takeWhile (fun c => c != 10)) ∧
    (∀ i s : Nat, (lineStarts (bytes "ab\n\ncd") 0)[i]? = some s →
      0 < s ∧ (bytes "ab\n\ncd")[s - 1]? = some 10 ∧
      ((bytes "ab\n\ncd").take (s - 1)).count 10 = i ∧
      (orig_lines (bytes "ab\n\ncd"))[i + 1]?
        = some (((bytes "ab\n\ncd").drop s).takeWhile (fun c => c != 10))) ∧
    orig_lines [] = [[]] :=
  splitter_is_split_on_newline (bytes "ab\n\ncd") (by decide)

/-! ## Runs of the loop over whole lines -/

theorem unlines_cons (l : List Byte) (ls : List (List Byte)) :
    unlines (l :: ls) = l ++ 10 :: unlines ls := by
  simp [unlines]

theorem divvyLoop_nil (fname : List Byte) (cnt fuel : Nat) (t : Tracker) :
    divvyLoop fname cnt fuel [] t = .ok t := by
  cases fuel <;> rfl

theorem divvyLoop_fuel_irrelevant (fname : List Byte) (cnt : Nat) (f1 : Nat) :
    ∀ (f2 : Nat) (rest : List Byte) (t : Tracker), rest.length ≤ f1 → rest.length ≤ f2 →
      divvyLoop fname cnt f1 rest t = divvyLoop fname cnt f2 rest t := by
  induction f1 with
  | zero =>
    intro f2 rest t h1 _
    cases rest with
    | nil => rw [divvyLoop_nil, divvyLoop_nil]
    | cons c cs => simp at h1
  | succ n ih =>
    intro f2 rest t h1 h2
    cases rest with
    | nil => rw [divvyLoop_nil, divvyLoop_nil]
    | cons c cs =>
      cases f2 with
      | zero => simp at h2
      | succ m =>
        rw [divvyLoop_succ_cons, divvyLoop_succ_cons]
        cases hstep : lineStep fname cnt
            ((c :: cs).takeWhile (fun b => b != 10) ++
              0 :: ((c :: cs).dropWhile (fun b => b != 10)).drop 1) t with
        | error e => rfl
        | ok t1 =>
          have hlen := length_after_line c cs
          simp only [List.length_cons] at h1 h2
          exact ih m _ t1 (by omega) (by omega)

/-- One pass of the loop over a line that ends with a newline. -/
theorem divvyLoop_line (fname : List Byte) (cnt fuel : Nat) (L rest : List Byte) (t : Tracker)
    (hL : 10 ∉ L) (hf : (L ++ 10 :: rest).length ≤ fuel) :
    divvyLoop fname cnt fuel (L ++ 10 :: rest) t =
      match lineStep fname cnt (L ++ 0 :: rest) t with
      | .error e => .error e
      | .ok t1 => divvyLoop fname cnt rest.length rest t1 := by
  have hp : ∀ x ∈ L, (x != 10) = true := by
    intro x hx
    have : x ≠ 10 := fun h => hL (h ▸ hx)
    simpa using this
  have htake : (L ++ 10 :: rest).takeWhile (fun b => b != 10) = L :=
    takeWhile_append_stop _ L 10 rest hp (by decide)
  have hdrop : ((L ++ 10 :: rest).dropWhile (fun b => b != 10)).drop 1 = rest := by
    rw [dropWhile_append_stop _ L 10 rest hp (by decide)]
    rfl
  obtain ⟨c, cs, hcs⟩ : ∃ c cs, L ++ 10 :: rest = c :: cs := by
    cases L with
    | nil => exact ⟨10, rest, rfl⟩
    | cons a l => exact ⟨a, l ++ 10 :: rest, rfl⟩
  cases fuel with
  | zero =>
    rw [hcs] at hf
    simp at hf
  | succ n =>
    have hstep := divvyLoop_succ_cons fname cnt n c cs t
    rw [← hcs, htake, hdrop] at hstep
    rw [hstep]
    cases lineStep fname cnt (L ++ 0 :: rest) t with
    | error e => rfl
    | ok t1 =>
      have hlen : rest.length ≤ n := by
        simp only [List.length_append, List.length_cons] at hf
        omega
      exact divvyLoop_fuel_irrelevant fname cnt n _ rest t1 hlen (le_refl _)

/-- One pass of the loop over a last line that has no newline behind it. -/
theorem divvyLoop_last_line (fname : List Byte) (cnt fuel : Nat) (L : List Byte) (t : Tracker)
    (hL : 10 ∉ L) (hne : L ≠ []) (hf : L.length ≤ fuel) :
    divvyLoop fname cnt fuel L t = lineStep fname cnt (L ++ 0 :: []) t := by
  have hp : ∀ x ∈ L, (x != 10) = true := by
    intro x hx
    have : x ≠ 10 := fun h => hL (h ▸ hx)
    simpa using this
  have htake : L.takeWhile (fun b => b != 10) = L := by
    rw [List.takeWhile_eq_self_iff]
    exact hp
  have hdrop : (L.dropWhile (fun b => b != 10)).drop 1 = [] := by
    rw [List.dropWhile_eq_nil_iff.mpr hp]
    rfl
  obtain ⟨c, cs, hcs⟩ := List.exists_cons_of_ne_nil hne
  cases fuel with
  | zero =>
    rw [hcs] at hf
    simp at hf
  | succ n =>
    have hstep := divvyLoop_succ_cons fname cnt n c cs t
    rw [← hcs, htake, hdrop] at hstep
    rw [hstep]
    cases lineStep fname cnt (L ++ [0]) t with
    | error e => rfl
    | ok t1 => exact divvyLoop_nil fname cnt n t1

theorem isPrefixOf_append_zero (a : List Byte) :
    ∀ (x y : List Byte), 0 ∉ a → a.isPrefixOf (x ++ 0 :: y) = a.isPrefixOf x := by
  induction a with
  | nil => intro x y _; simp [List.isPrefixOf]
  | cons b bs ih =>
    intro x y h
    have hb : (b == (0 : Byte)) = false := by
      rw [beq_eq_false_iff_ne]
      exact fun h0 => h (by simp [h0])
    cases x with
    | nil => simp [List.isPrefixOf, hb]
    | cons e es =>
      have e1 : (b :: bs).isPrefixOf ((e :: es) ++ 0 :: y) =
          (b == e && bs.isPrefixOf (es ++ 0 :: y)) := rfl
      have e2 : (b :: bs).isPrefixOf (e :: es) = (b == e && bs.isPrefixOf es) := rfl
      rw [e1, e2, ih es y (fun hm => h (List.mem_cons_of_mem _ hm))]

/-- The pass over a line that is no directive, in a state that lets it through. -/
theorem lineStep_plain (fname : List Byte) (cnt : Nat) (L after : List Byte) (t : Tracker)
    (hL : hashLine.isPrefixOf L = false) (hi : t.in_our_file = false ∨ 0 ≤ t.i)
    (hmin : INT_MIN ≤ t.i) (hmax : t.i < INT_MAX) :
    lineStep fname cnt (L ++ 0 :: after) t =
      .ok { in_our_file := t.in_our_file, i := t.i + 1,
            pre_lines := if t.in_our_file = true ∧ t.i < (cnt : Int) then
              assign t.pre_lines t.i.toNat (cstr L) else t.pre_lines } := by
  unfold lineStep
  rw [isPrefixOf_append_zero hashLine L after (by decide), hL, cstr_append_zero]
  simp only [Bool.false_eq_true, if_false]
  have h3 : toInt (t.i + 1) = .ok (t.i + 1) := by
    unfold toInt
    have h1 : INT_MIN ≤ t.i + 1 := by omega
    have h2 : t.i + 1 ≤ INT_MAX := by omega
    simp [h1, h2]
  unfold assignLine
  rw [h3]
  by_cases hc : t.in_our_file = true ∧ t.i < (cnt : Int)
  · have hb : (t.in_our_file && decide (t.i < (cnt : Int))) = true := by
      simp [hc.1, hc.2]
    have h0 : ¬ t.i < 0 := by
      rcases hi with h | h
      · rw [hc.1] at h
        cases h
      · omega
    rw [if_pos hb, if_neg h0, if_pos hc]
  · have hb : (t.in_our_file && decide (t.i < (cnt : Int))) = false := by
      rw [Bool.eq_false_iff]
      intro h
      simp only [Bool.and_eq_true, decide_eq_true_eq] at h
      exact hc h
    rw [if_neg (by simp [hb]), if_neg hc]

/-- The loop over lines that are no directives, met with `in_our_file` set and the counter
at `j`: line `k` goes to the slot `j + k` when this is below `cnt` and is dropped otherwise,
and the counter advances by one per line. -/
theorem divvyLoop_plain_lines (fname : List Byte) (cnt : Nat) :
    ∀ (Ls : List (List Byte)) (j : Nat) (pl : List (Option (List Byte))),
      (∀ L ∈ Ls, 10 ∉ L ∧ hashLine.isPrefixOf L = false) →
      (j : Int) + Ls.length ≤ INT_MAX → pl.length = cnt →
      ∃ pl2 : List (Option (List Byte)), pl2.length = cnt ∧
        (∀ x, pl2.getD x none = appendLines (pl.getD x none)
          (if j ≤ x ∧ x < j + Ls.length ∧ x < cnt then [cstr (Ls.getD (x - j) [])] else [])) ∧
        ∀ rest : List Byte,
          divvyLoop fname cnt (unlines Ls ++ rest).length (unlines Ls ++ rest)
              { in_our_file := true, i := j, pre_lines := pl } =
            divvyLoop fname cnt rest.length rest
              { in_our_file := true, i := (j : Int) + Ls.length, pre_lines := pl2 } := by
  intro Ls
  induction Ls with
  | nil =>
    intro j pl _ _ hlen
    refine ⟨pl, hlen, ?_, ?_⟩
    · intro x
      have : ¬ (j ≤ x ∧ x < j + ([] : List (List Byte)).length ∧ x < cnt) := by
        simp only [List.length_nil]
        omega
      rw [if_neg this, appendLines_nil]
    · intro rest
      simp [unlines]
  | cons L Ls ih =>
    intro j pl hLs hmax hlen
    have hL := hLs L (List.mem_cons_self L Ls)
    simp only [List.length_cons, Nat.cast_add, Nat.cast_one] at hmax
    have hINT : INT_MAX = 2147483647 := rfl
    have hMIN : INT_MIN = -2147483648 := rfl
    -- the state behind the first line
    have hstep : ∀ after : List Byte, lineStep fname cnt (L ++ 0 :: after)
        { in_our_file := true, i := j, pre_lines := pl } =
        .ok { in_our_file := true, i := ((j + 1 : Nat) : Int),
              pre_lines := if j < cnt then assign pl j (cstr L) else pl } := by
      intro after
      rw [lineStep_plain fname cnt L after _ hL.2 (Or.inr (by simp)) (by simp only; omega)
        (by simp only; omega)]
      simp only [Int.toNat_ofNat, true_and, Nat.cast_lt, Nat.cast_add, Nat.cast_one]
    have hlen1 : (if j < cnt then assign pl j (cstr L) else pl).length = cnt := by
      split
      · rw [assign_length, hlen]
      · exact hlen
    obtain ⟨pl2, hl2, hslot, hrun⟩ := ih (j + 1) (if j < cnt then assign pl j (cstr L) else pl)
      (fun M hM => hLs M (List.mem_cons_of_mem L hM))
      (by simp only [Nat.cast_add, Nat.cast_one]; omega) hlen1
    refine ⟨pl2, hl2, ?_, ?_⟩
    · intro x
      rw [hslot x]
      have hfirst : (if j < cnt then assign pl j (cstr L) else pl).getD x none =
          appendLines (pl.getD x none) (if j = x ∧ j < cnt then [cstr L] else []) := by
        by_cases hj : j < cnt
        · rw [if_pos hj, assign_getD pl j x (cstr L) (by omega)]
          by_cases hjx : j = x
          · subst hjx
            rw [if_pos rfl, if_pos ⟨rfl, hj⟩]
          · rw [if_neg hjx, if_neg (fun h => hjx h.1)]
        · rw [if_neg hj, if_neg (fun h => hj h.2), appendLines_nil]
      rw [hfirst, appendLines_append]
      congr 1
      by_cases hjx : j = x
      · subst hjx
        by_cases hj : j < cnt
        · have h1 : ¬ (j + 1 ≤ j ∧ j < j + 1 + Ls.length ∧ j < cnt) := by omega
          have h2 : j ≤ j ∧ j < j + (Ls.length + 1) ∧ j < cnt := by omega
          simp only [List.length_cons]
          rw [if_neg h1, if_pos h2, if_pos ⟨trivial, hj⟩]
          simp
        · have h1 : ¬ (j + 1 ≤ j ∧ j < j + 1 + Ls.length ∧ j < cnt) := by omega
          have h2 : ¬ (j ≤ j ∧ j < j + (Ls.length + 1) ∧ j < cnt) := by omega
          simp only [List.length_cons]
          rw [if_neg h1, if_neg h2, if_neg (fun h => hj h.2)]
          rfl
      · rw [if_neg (fun h => hjx h.1)]
        simp only [List.length_cons, List.nil_append]
        by_cases hx : j + 1 ≤ x ∧ x < j + 1 + Ls.length ∧ x < cnt
        · have h2 : j ≤ x ∧ x < j + (Ls.length + 1) ∧ x < cnt := by omega
          rw [if_pos hx, if_pos h2]
          have e : x - j = (x - (j + 1)) + 1 := by omega
          rw [e]
          rfl
        · have h2 : ¬ (j ≤ x ∧ x < j + (Ls.length + 1) ∧ x < cnt) := by omega
          rw [if_neg hx, if_neg h2]
    · intro rest
      have e : unlines (L :: Ls) ++ rest = L ++ 10 :: (unlines Ls ++ rest) := by
        rw [unlines_cons]
        simp
      rw [e, divvyLoop_line fname cnt _ L (unlines Ls ++ rest) _ hL.1 (le_refl _), hstep]
      simp only
      rw [hrun rest]
      simp only [List.length_cons, Nat.cast_add, Nat.cast_one]
      congr 2
      omega

theorem isPrefixOf_self_quote (a x : List Byte) : (a ++ [34]).isPrefixOf (a ++ 34 :: x) = true := by
  induction a with
  | nil => simp [List.isPrefixOf]
  | cons b bs ih =>
    have e : ((b :: bs) ++ [34]).isPrefixOf ((b :: bs) ++ 34 :: x) =
        (b == b && (bs ++ [34]).isPrefixOf (bs ++ 34 :: x)) := rfl
    rw [e, ih]
    simp

theorem newline_not_mem_decimal (n : Nat) : 10 ∉ decimal n := by
  intro h
  have := (decimal_spec n).2.1 10 h
  simp [isdigit] at this

theorem lineStep_directive (orig_fname : List Byte) (cnt : Nat) (mem : List Byte)
    (t0 t1 : Tracker) (hd : hashLine.isPrefixOf mem = true)
    (h : lineStep orig_fname cnt mem t0 = .ok t1) :
    t1.pre_lines = t0.pre_lines ∧ atoi ((cstr mem).drop 6) = .ok (t1.i + 1) := by
  unfold lineStep at h
  rw [hd] at h
  simp only [if_true] at h
  unfold lineDirective at h
  cases h1 : in_our_file_of orig_fname mem with
  | error e => simp [h1] at h
  | ok f =>
    cases h2 : atoi (List.drop 6 (cstr mem)) with
    | error e => simp [h1, h2] at h
    | ok n =>
      cases h3 : toInt (n - 1) with
      | error e => simp [h1, h2, h3] at h
      | ok i =>
        simp only [h1, h2, h3, Except.ok.injEq] at h
        have hi : i = n - 1 := by
          unfold toInt at h3
          split at h3
          · simp only [Except.ok.injEq] at h3
            exact h3.symm
          · cases h3
        rw [← h]
        simp only [hi, true_and, Except.ok.injEq]
        omega

/-- C11, amended. A directive line leaves `pre_lines` as it is and sets the counter to the
number it carries minus one, without incrementing it.  A line that is no directive, met with
the counter inside the range of `int` and below `INT_MAX`, and not negative while
`in_our_file` holds, increments the counter by exactly one whether or not it is attributed.
Hence after a directive `#line N` that names the target file, with `1 ≤ N ≤ INT_MAX`, the
`k`-th following line that is no directive is appended to the slot `N - 1 + k` when this
index is below `cnt` and is dropped otherwise, no other slot changes, and behind `m` such
lines, `N - 1 + m ≤ INT_MAX`, the counter is `N - 1 + m`. -/
theorem free_running_counter (orig_fname r : List Byte) (cnt N : Nat) (Ls : List (List Byte))
    (t : Tracker) (hlen : t.pre_lines.length = cnt) (hN : 1 ≤ N) (hNmax : (N : Int) ≤ INT_MAX)
    (hmax : (N : Int) - 1 + Ls.length ≤ INT_MAX)
    (hname : 10 ∉ cstr orig_fname) (hr : 10 ∉ r)
    (hLs : ∀ L ∈ Ls, 10 ∉ L ∧ hashLine.isPrefixOf L = false) :
    (∀ (mem : List Byte) (t0 t1 : Tracker), hashLine.isPrefixOf mem = true →
      lineStep orig_fname cnt mem t0 = .ok t1 →
      t1.pre_lines = t0.pre_lines ∧ atoi ((cstr mem).drop 6) = .ok (t1.i + 1)) ∧
    (∀ (L after : List Byte) (t0 : Tracker), hashLine.isPrefixOf L = false →
      (t0.in_our_file = false ∨ 0 ≤ t0.i) → INT_MIN ≤ t0.i → t0.i < INT_MAX →
      ∃ t1, lineStep orig_fname cnt (L ++ 0 :: after) t0 = .ok t1 ∧ t1.i = t0.i + 1 ∧
        t1.in_our_file = t0.in_our_file) ∧
    ∃ pl2 : List (Option (List Byte)), pl2.length = cnt ∧
      (∀ x, pl2.getD x none = appendLines (t.pre_lines.getD x none)
        (if N - 1 ≤ x ∧ x < N - 1 + Ls.length ∧ x < cnt then
          [cstr (Ls.getD (x - (N - 1)) [])] else [])) ∧
      ∀ rest : List Byte,
        divvyLoop orig_fname cnt
            ((hashLine ++ decimal N ++ 32 :: 34 :: (cstr orig_fname ++ 34 :: r))
              ++ 10 :: (unlines Ls ++ rest)).length
            ((hashLine ++ decimal N ++ 32 :: 34 :: (cstr orig_fname ++ 34 :: r))
              ++ 10 :: (unlines Ls ++ rest)) t =
          divvyLoop orig_fname cnt rest.length rest
            { in_our_file := true, i := (N : Int) - 1 + Ls.length, pre_lines := pl2 } := by
  refine ⟨fun mem t0 t1 hd h => lineStep_directive orig_fname cnt mem t0 t1 hd h, ?_, ?_⟩
  · intro L after t0 hL hi hmin hmx
    exact ⟨_, lineStep_plain orig_fname cnt L after t0 hL hi hmin hmx, rfl, rfl⟩
  · have hINT : INT_MAX = 2147483647 := rfl
    have hcast : ((N - 1 : Nat) : Int) = (N : Int) - 1 := by omega
    obtain ⟨pl2, hl2, hslot, hrun⟩ := divvyLoop_plain_lines orig_fname cnt Ls (N - 1)
      t.pre_lines hLs (by rw [hcast]; exact hmax) hlen
    refine ⟨pl2, hl2, hslot, ?_⟩
    intro rest
    have hD : 10 ∉ hashLine ++ decimal N ++ 32 :: 34 :: (cstr orig_fname ++ 34 :: r) := by
      intro h
      simp only [List.mem_append, List.mem_cons] at h
      rcases h with (h | h) | h | h | h | h | h
      · revert h
        decide
      · exact newline_not_mem_decimal N h
      · cases h
      · cases h
      · exact hname h
      · cases h
      · exact hr h
    rw [divvyLoop_line orig_fname cnt _ _ (unlines Ls ++ rest) t hD (le_refl _),
      lineStep_numbered orig_fname cnt N (cstr orig_fname) r (unlines Ls ++ rest) t hNmax,
      isPrefixOf_self_quote]
    simp only
    rw [← hcast]
    exact hrun rest


set_option maxRecDepth 100000 in
/-- Witness of C11, amended: the directive `#line 2 "src.t"` followed by the lines `a;`,
`b;` and `c;`, with three logical lines. -/
theorem free_running_counter_witness :
    (∀ (mem : List Byte) (t0 t1 : Tracker), hashLine.isPrefixOf mem = true →
      lineStep (bytes "src.t") 3 mem t0 = .ok t1 →
      t1.pre_lines = t0.pre_lines ∧ atoi ((cstr mem).drop 6) = .ok (t1.i + 1)) ∧
    (∀ (L after : List Byte) (t0 : Tracker), hashLine.isPrefixOf L = false →
      (t0.in_our_file = false ∨ 0 ≤ t0.i) → INT_MIN ≤ t0.i → t0.i < INT_MAX →
      ∃ t1, lineStep (bytes "src.t") 3 (L ++ 0 :: after) t0 = .ok t1 ∧ t1.i = t0.i + 1 ∧
        t1.in_our_file = t0.in_our_file) ∧
    ∃ pl2 : List (Option (List Byte)), pl2.length = 3 ∧
      (∀ x, pl2.getD x none =
        appendLines (([none, some (bytes "z"), none] : List (Option (List Byte))).getD x none)
        (if 2 - 1 ≤ x ∧ x < 2 - 1 + [bytes "a;", bytes "b;", bytes "c;"].length ∧ x < 3 then
          [cstr ([bytes "a;", bytes "b;", bytes "c;"].getD (x - (2 - 1)) [])] else [])) ∧
      ∀ rest : List Byte,
        divvyLoop (bytes "src.t") 3
            ((hashLine ++ decimal 2 ++ 32 :: 34 :: (cstr (bytes "src.t") ++ 34 :: []))
              ++ 10 :: (unlines [bytes "a;", bytes "b;", bytes "c;"] ++ rest)).length
            ((hashLine ++ decimal 2 ++ 32 :: 34 :: (cstr (bytes "src.t") ++ 34 :: []))
              ++ 10 :: (unlines [bytes "a;", bytes "b;", bytes "c;"] ++ rest))
            { in_our_file := false, i := 7, pre_lines := [none, some (bytes "z"), none] } =
          divvyLoop (bytes "src.t") 3 rest.length rest
            { in_our_file := true,
              i := ((2 : Nat) : Int) - 1 + [bytes "a;", bytes "b;", bytes "c;"].length,
              pre_lines := pl2 } :=
  free_running_counter (bytes "src.t") [] 3 2 [bytes "a;", bytes "b;", bytes "c;"]
    { in_our_file := false, i := 7, pre_lines := [none, some (bytes "z"), none] }
    (by decide) (by decide) (by decide) (by decide) (by decide) (by decide) (by decide)

set_option maxRecDepth 100000 in
/-- C11 as stated fails. Behind `#line 0 "src.t"` the next line is neither attributed to
a slot of `pre_lines` nor dropped: the index `-1` is below `cnt`, `pre_lines[-1]` is
accessed and the run has no defined state.  Behind `#line 2147483647 "src.t"` the first
line brings the counter to `INT_MAX` and the second line cannot increment it. -/
theorem counter_leaves_int_range :
    divvy (bytes "src.t") 3 (bytes "#line 0 \"src.t\"\nint a;\n")
      = .error (.preLinesIndex (-1)) ∧
    attributed (bytes "src.t") 3 (bytes "#line 0 \"src.t\"\nint a;\n") = [] ∧
    lineStep (bytes "src.t") 3 (bytes "#line 2147483647 \"src.t\"" ++ 0 :: bytes "a\nb\n")
      { in_our_file := true, i := 0, pre_lines := [none, none, none] }
      = .ok { in_our_file := true, i := 2147483646, pre_lines := [none, none, none] } ∧
    lineStep (bytes "src.t") 3 (bytes "a" ++ 0 :: bytes "b\n")
      { in_our_file := true, i := 2147483646, pre_lines := [none, none, none] }
      = .ok { in_our_file := true, i := 2147483647, pre_lines := [none, none, none] } ∧
    lineStep (bytes "src.t") 3 (bytes "b" ++ 0 :: [])
      { in_our_file := true, i := 2147483647, pre_lines := [none, none, none] }
      = .error .intOverflow ∧
    divvy (bytes "src.t") 3 (bytes "#line 2147483647 \"src.t\"\na\nb\n")
      = .error .intOverflow := by
  decide

/-! ## Merging a text with itself -/

theorem intercalate_append_singleton (init : List (List Byte)) (last : List Byte) :
    [10].intercalate (init ++ [last]) = unlines init ++ last := by
  induction init with
  | nil => simp [List.intercalate, unlines]
  | cons l init ih =>
    rw [unlines_cons]
    cases init with
    | nil =>
      simp [List.intercalate, unlines]
    | cons l2 init2 =>
      simp only [List.intercalate, List.cons_append, List.intersperse_cons_cons,
        List.flatten_cons, List.append_assoc, List.singleton_append] at ih ⊢
      rw [ih]
      rfl

theorem mergeLine_self (l : List Byte) : mergeLine (some l) l = l := by
  have hr : restored (some l) l = false := by
    unfold restored restores
    simp only [Option.getD_some]
    cases h : l.dropWhile isspace with
    | nil => decide
    | cons a as => rfl
  rw [mergeLine_of_not_restored _ _ hr]
  simp [preIndent, origIndent]

theorem length_le_unlines (ls : List (List Byte)) : ls.length ≤ (unlines ls).length := by
  induction ls with
  | nil => simp
  | cons l ls ih =>
    rw [unlines_cons]
    simp only [List.length_cons, List.length_append]
    omega

theorem map_range_getD (ls : List (List Byte)) (f : List Byte → List Byte) :
    (List.range ls.length).map (fun j => f (ls.getD j [])) = ls.map f := by
  apply List.ext_getElem
  · simp
  · intro n h1 h2
    simp only [List.length_map, List.length_range] at h1
    simp [List.getD_eq_getElem?_getD, List.getElem?_eq_getElem h1]

theorem mem_unlines_of_mem (ls : List (List Byte)) (L : List Byte) (c : Byte)
    (hL : L ∈ ls) (hc : c ∈ L) : c ∈ unlines ls := by
  unfold unlines
  rw [List.mem_flatten]
  exact ⟨L ++ [10], List.mem_map.mpr ⟨L, hL, rfl⟩, List.mem_append_left _ hc⟩

/-- The loop over a text without directive: line `k` lands in slot `k`. -/
theorem divvyLoop_plain_text (fname : List Byte) (init : List (List Byte)) (last : List Byte)
    (hinit : ∀ L ∈ init, 10 ∉ L ∧ hashLine.isPrefixOf L = false) (hlast : 10 ∉ last)
    (hdl : hashLine.isPrefixOf last = false) (h0 : 0 ∉ unlines init ++ last)
    (hsize : ((unlines init ++ last).length : Int) ≤ INT_MAX) :
    ∃ t : Tracker,
      divvyLoop fname (init.length + 1) (unlines init ++ last).length (unlines init ++ last)
        { in_our_file := true, i := 0, pre_lines := List.replicate (init.length + 1) none }
        = .ok t ∧
      ∀ x, t.pre_lines.getD x none =
        if x < init.length then some (init.getD x [])
        else if x = init.length ∧ last ≠ [] then some last else none := by
  have hINT : INT_MAX = 2147483647 := rfl
  have hMIN : INT_MIN = -2147483648 := rfl
  have hle := length_le_unlines init
  simp only [List.length_append, Nat.cast_add] at hsize
  obtain ⟨pl2, hl2, hslot, hrun⟩ := divvyLoop_plain_lines fname (init.length + 1) init 0
    (List.replicate (init.length + 1) none) hinit (by simp only [Nat.cast_zero]; omega) (by simp)
  have hslot2 : ∀ x, pl2.getD x none = if x < init.length then some (init.getD x []) else none := by
    intro x
    rw [hslot x]
    have hnone : (List.replicate (init.length + 1) (none : Option (List Byte))).getD x none
        = none := by
      simp [List.getD_eq_getElem?_getD, List.getElem?_replicate]
      split <;> rfl
    rw [hnone]
    by_cases hx : x < init.length
    · have hc : 0 ≤ x ∧ x < 0 + init.length ∧ x < init.length + 1 := by omega
      rw [if_pos hc, if_pos hx]
      have hmem : init.getD (x - 0) [] ∈ init := by
        rw [List.getD_eq_getElem?_getD, Nat.sub_zero, List.getElem?_eq_getElem hx]
        exact List.getElem_mem hx
      have hz : 0 ∉ init.getD (x - 0) [] := fun hz =>
        h0 (List.mem_append_left _ (mem_unlines_of_mem init _ 0 hmem hz))
      rw [cstr_eq_self _ hz]
      simp [appendLines]
    · have hc : ¬ (0 ≤ x ∧ x < 0 + init.length ∧ x < init.length + 1) := by omega
      rw [if_neg hc, if_neg hx]
      rfl
  have hrun2 := hrun last
  simp only [Nat.cast_zero, zero_add] at hrun2
  by_cases hne : last = []
  · subst hne
    refine ⟨{ in_our_file := true, i := (init.length : Int), pre_lines := pl2 }, ?_, ?_⟩
    · rw [hrun2]
      rfl
    · intro x
      rw [hslot2 x]
      simp
  · have hpos : 0 < last.length := List.length_pos.mpr hne
    have hz : 0 ∉ last := fun hz => h0 (List.mem_append_right _ hz)
    have hc : (true = true ∧ (init.length : Int) < ((init.length + 1 : Nat) : Int)) := by
      refine ⟨rfl, ?_⟩
      simp only [Nat.cast_add, Nat.cast_one]
      omega
    refine ⟨{ in_our_file := true, i := (init.length : Int) + 1,
              pre_lines := assign pl2 init.length last }, ?_, ?_⟩
    · rw [hrun2, divvyLoop_last_line fname _ _ last _ hlast hne (le_refl _),
        lineStep_plain fname _ last [] _ hdl (Or.inr (by simp)) (by simp only; omega)
          (by simp only; omega)]
      simp only
      rw [if_pos ⟨trivial, hc.2⟩, Int.toNat_ofNat, cstr_eq_self _ hz]
    · intro x
      simp only
      rw [assign_getD _ _ _ _ (by omega), hslot2 x]
      by_cases hx : x < init.length
      · have hx2 : ¬ init.length = x := by omega
        simp [hx, hx2, appendLines_nil]
      · by_cases hx2 : init.length = x
        · subst hx2
          simp [hne, appendLines]
        · have hx3 : ¬ x = init.length := fun h => hx2 h.symm
          simp [hx, hx2, hx3, appendLines]

theorem unlines_append_singleton (init : List (List Byte)) (last : List Byte) :
    unlines (init ++ [last]) = unlines init ++ last ++ [10] := by
  simp [unlines]

/-- The merge of slots that hold the original lines themselves (the last slot may be absent
when the last line is empty) writes the original lines. -/
theorem mergeLoop_same_lines (init : List (List Byte)) (last : List Byte)
    (pl : List (Option (List Byte)))
    (hpl : ∀ x, pl.getD x none =
      if x < init.length then some (init.getD x [])
      else if x = init.length ∧ last ≠ [] then some last else none) :
    mergeLoop (init ++ [last]) pl (init.length + 1) 0 = unlines (init ++ [last]) := by
  rw [mergeLoop_eq_flatten]
  unfold unlines
  congr 1
  have hlen : (init ++ [last]).length = init.length + 1 := by simp
  rw [← map_range_getD (init ++ [last]) (fun l => l ++ [10]), hlen]
  apply List.map_congr_left
  intro j hj
  have hj2 : j < init.length + 1 := List.mem_range.mp hj
  simp only [zero_add]
  congr 1
  rw [hpl j]
  by_cases hx : j < init.length
  · rw [if_pos hx]
    have e : (init ++ [last]).getD j [] = init.getD j [] := by
      simp [List.getD_eq_getElem?_getD, List.getElem?_append_left hx]
    rw [e, mergeLine_self]
  · have hj3 : j = init.length := by omega
    subst hj3
    have e : (init ++ [last]).getD init.length [] = last := by
      simp [List.getD_eq_getElem?_getD]
    rw [e, if_neg hx]
    by_cases hne : last = []
    · subst hne
      rw [if_neg (fun h => h.2 rfl)]
      rfl
    · rw [if_pos ⟨rfl, hne⟩, mergeLine_self]

theorem physicalLines_of_split (buf : List Byte) (init : List (List Byte)) (last : List Byte)
    (h : buf.splitOn 10 = init ++ [last]) :
    physicalLines buf = if last = [] then init else init ++ [last] := by
  unfold physicalLines
  rw [h]
  by_cases hl : last = []
  · subst hl
    simp
  · simp [hl]

/-- C18. Initial state and self-merge identity: the loop over the preprocessed lines starts
with `in_our_file` set, the counter at 0 and every slot absent; so for a text `T` without
NUL, none of whose lines begins with `#line `, and of at most `INT_MAX` bytes (the size
bound under which the counters of the program are exact), merging `T` with itself puts
physical line `k` into slot `k` and writes every original line as it is: the output is `T`
followed by one newline. -/
theorem self_merge_identity (orig_fname T : List Byte) (h0 : 0 ∉ T)
    (hdir : ∀ l ∈ T.splitOn 10, hashLine.isPrefixOf l = false)
    (hsize : (T.length : Int) ≤ INT_MAX) :
    (∀ (cnt : Nat) (pre : List Byte), divvy orig_fname cnt pre =
      divvyLoop orig_fname cnt pre.length pre
        { in_our_file := true, i := 0, pre_lines := List.replicate cnt none }) ∧
    (∃ t : Tracker, divvy orig_fname (orig_cnt T) T = .ok t ∧
      ∀ k, t.pre_lines.getD k none =
        if k < (physicalLines T).length then some ((physicalLines T).getD k []) else none) ∧
    ppmerge orig_fname T T = .ok (unlines (orig_lines T)) ∧
    unlines (orig_lines T) = T ++ [10] := by
  have hne : T.splitOn 10 ≠ [] := List.splitOnP_ne_nil _ T
  have hls : T.splitOn 10 = (T.splitOn 10).dropLast ++ [(T.splitOn 10).getLast hne] :=
    (List.dropLast_append_getLast hne).symm
  generalize (T.splitOn 10).dropLast = init at hls
  generalize (T.splitOn 10).getLast hne = last at hls
  have horig : orig_lines T = init ++ [last] := by
    rw [orig_lines_eq_splitOn T h0, hls]
  have hT : T = unlines init ++ last := by
    rw [← intercalate_append_singleton, ← hls]
    exact (List.intercalate_splitOn T 10).symm
  have hcnt : orig_cnt T = init.length + 1 := by
    rw [← orig_lines_length, horig]
    simp
  have hnl : ∀ l ∈ init ++ [last], 10 ∉ l := by
    intro l hl
    rw [← horig] at hl
    exact newline_not_mem_orig_line T l hl
  have hinit : ∀ L ∈ init, 10 ∉ L ∧ hashLine.isPrefixOf L = false := by
    intro L hL
    exact ⟨hnl L (List.mem_append_left _ hL), hdir L (by rw [hls]; exact List.mem_append_left _ hL)⟩
  have hlast : 10 ∉ last := hnl last (by simp)
  have hdl : hashLine.isPrefixOf last = false := hdir last (by rw [hls]; simp)
  obtain ⟨t, hrun, hslots⟩ := divvyLoop_plain_text orig_fname init last hinit hlast hdl
    (by rw [← hT]; exact h0) (by rw [← hT]; exact hsize)
  have hdivvy : divvy orig_fname (orig_cnt T) T = .ok t := by
    unfold divvy
    rw [hcnt]
    conv_lhs => rw [hT]
    exact hrun
  refine ⟨fun _ _ => rfl, ⟨t, hdivvy, ?_⟩, ?_, ?_⟩
  · intro k
    rw [hslots k, physicalLines_of_split T init last hls]
    by_cases hl : last = []
    · subst hl
      simp
    · simp only [hl, if_false, List.length_append, List.length_singleton]
      by_cases hk : k < init.length
      · have hk2 : k < init.length + 1 := by omega
        simp [hk, hk2, List.getD_eq_getElem?_getD, List.getElem?_append_left hk]
      · by_cases hk3 : k = init.length
        · subst hk3
          simp [List.getD_eq_getElem?_getD, hl]
        · have hk4 : ¬ k < init.length + 1 := by omega
          simp [hk, hk3, hk4]
  · unfold ppmerge
    rw [hdivvy]
    simp only
    rw [hcnt, horig, mergeLoop_same_lines init last t.pre_lines hslots]
  · rw [horig, unlines_append_singleton, ← hT]

set_option maxRecDepth 100000 in
/-- Witness of C18: the text `/* c */`, newline, `  x = 1;`, newline. -/
theorem self_merge_identity_witness :
    (∀ (cnt : Nat) (pre : List Byte), divvy (bytes "src.t") cnt pre =
      divvyLoop (bytes "src.t") cnt pre.length pre
        { in_our_file := true, i := 0, pre_lines := List.replicate cnt none }) ∧
    (∃ t : Tracker,
      divvy (bytes "src.t") (orig_cnt (bytes "/* c */\n  x = 1;\n")) (bytes "/* c */\n  x = 1;\n")
        = .ok t ∧
      ∀ k, t.pre_lines.getD k none =
        if k < (physicalLines (bytes "/* c */\n  x = 1;\n")).length then
          some ((physicalLines (bytes "/* c */\n  x = 1;\n")).getD k []) else none) ∧
    ppmerge (bytes "src.t") (bytes "/* c */\n  x = 1;\n") (bytes "/* c */\n  x = 1;\n")
      = .ok (unlines (orig_lines (bytes "/* c */\n  x = 1;\n"))) ∧
    unlines (orig_lines (bytes "/* c */\n  x = 1;\n")) = bytes "/* c */\n  x = 1;\n" ++ [10] :=
  self_merge_identity (bytes "src.t") (bytes "/* c */\n  x = 1;\n")
    (by decide) (by decide) (by decide)

/-! ## Directives without file name -/

set_option maxRecDepth 100000 in
/-- C17 fails on the code. The directive `#line 1` has no double quote, so the scan of line
135 stops at the terminator and lines 136 and 137 compare the bytes of the NEXT line with
the target name.  With the target `src.t`, the line `int a;` behind the directive is
processed with `in_our_file` cleared and dropped, and the output for the original
`x = MAC;` is an empty line; with that line changed to `src.t"` the directive sets
`in_our_file` and the line itself is written.  With the target `a`, newline, `#line 5`,
newline, `q`, the first directive `#line 1` reads over two lines: the last line, `q"` or
`z"`, is processed behind `#line 5` with `in_our_file` cleared and the counter at 4 in both
runs, yet it decides whether the line `a` was attributed. -/
theorem next_line_decides_in_our_file :
    lineStep (bytes "src.t") 1 (bytes "#line 1" ++ 0 :: bytes "int a;\n")
      { in_our_file := true, i := 0, pre_lines := [none] }
      = .ok { in_our_file := false, i := 0, pre_lines := [none] } ∧
    attributed (bytes "src.t") 1 (bytes "#line 1\nint a;\n") = [] ∧
    ppmerge (bytes "src.t") (bytes "x = MAC;") (bytes "#line 1\nint a;\n") = .ok (bytes "\n") ∧
    lineStep (bytes "src.t") 1 (bytes "#line 1" ++ 0 :: bytes "src.t\"\n")
      { in_our_file := true, i := 0, pre_lines := [none] }
      = .ok { in_our_file := true, i := 0, pre_lines := [none] } ∧
    ppmerge (bytes "src.t") (bytes "x = MAC;") (bytes "#line 1\nsrc.t\"\n")
      = .ok (bytes "src.t\"\n") ∧
    lineStep (bytes "a\n#line 5\nq") 1 (bytes "#line 5" ++ 0 :: bytes "q\"\n")
      { in_our_file := true, i := 1, pre_lines := [some (bytes "a")] }
      = .ok { in_our_file := false, i := 4, pre_lines := [some (bytes "a")] } ∧
    ppmerge (bytes "a\n#line 5\nq") (bytes "x") (bytes "#line 1\na\n#line 5\nq\"\n")
      = .ok (bytes "a\n") ∧
    lineStep (bytes "a\n#line 5\nq") 1 (bytes "#line 5" ++ 0 :: bytes "z\"\n")
      { in_our_file := false, i := 1, pre_lines := [none] }
      = .ok { in_our_file := false, i := 4, pre_lines := [none] } ∧
    ppmerge (bytes "a\n#line 5\nq") (bytes "x") (bytes "#line 1\na\n#line 5\nz\"\n")
      = .ok (bytes "\n") := by
  decide

end PPMerge
